import Mathlib

set_option maxRecDepth 100000

set_option maxHeartbeats 1000000

/-!
Verification of the Harmony message-framing and response-parsing core
(harmonyEncoder: `renderHarmonyMessage`, `encodeHarmonyConversation`,
`toolsToTypeScriptNamespace`, `parseHarmony`, and the class variant
`convertToHarmonyFormat`).  Strings are modelled as `List Char`; the
JavaScript regular expressions used by the source are modelled by
explicit first-occurrence searches mirroring their lazy/lookahead
semantics, and `JSON.parse` by an executable recursive-descent JSON
reader.
-/

/-- Strings are modelled as lists of characters. -/
abbrev Str := List Char

/-- Whitespace characters removed by JavaScript `String.prototype.trim`
(ECMA-262 WhiteSpace and LineTerminator sets). -/
def isJsWs (c : Char) : Bool :=
  [' ', '\t', '\n', '\r', '\x0b', '\x0c', '\u00a0', '\u1680', '\u2000', '\u2001',
   '\u2002', '\u2003', '\u2004', '\u2005', '\u2006', '\u2007', '\u2008', '\u2009',
   '\u200a', '\u2028', '\u2029', '\u202f', '\u205f', '\u3000', '\ufeff'].contains c

/-- Model of JavaScript `String.prototype.trim`: strip leading and trailing
whitespace. -/
def jsTrim (l : Str) : Str :=
  ((l.dropWhile isJsWs).reverse.dropWhile isJsWs).reverse

/-- A text is `noLt` when it contains no `<` character.  All wire-format
tokens of the Harmony format begin with `<`, so a `noLt` text can contain
no token and no fragment of one. -/
def noLt (l : Str) : Prop := '<' ∉ l

instance (l : Str) : Decidable (noLt l) := by
  unfold noLt; infer_instance

/-- Index of the leftmost occurrence of `pat` in `text` (the position at
which a JavaScript regex consisting of the literal `pat` would match). -/
def firstOccur (pat : Str) : Str → Option Nat
  | [] => if List.isPrefixOf pat [] then some 0 else none
  | c :: t =>
    if List.isPrefixOf pat (c :: t) then some 0
    else Option.map (fun n => n + 1) (firstOccur pat t)

/-- Boolean containment test built on `firstOccur`. -/
def occursIn (pat text : Str) : Bool := (firstOccur pat text).isSome

lemma isPrefixOf_append_self (l t : Str) : List.isPrefixOf l (l ++ t) = true := by
  induction l with
  | nil => simp [List.isPrefixOf]
  | cons c l ih => simp [List.isPrefixOf, ih]

lemma firstOccur_of_isPrefixOf {pat l : Str} (h : List.isPrefixOf pat l = true) :
    firstOccur pat l = some 0 := by
  cases l with
  | nil => simp [firstOccur, h]
  | cons c t => simp [firstOccur, h]

lemma firstOccur_self_append (pat t : Str) : firstOccur pat (pat ++ t) = some 0 :=
  firstOccur_of_isPrefixOf (isPrefixOf_append_self pat t)

lemma isPrefixOf_false_of_head_ne {p' : Str} {c : Char} {t : Str} (hc : c ≠ '<') :
    List.isPrefixOf ('<' :: p') (c :: t) = false := by
  simp [List.isPrefixOf]
  intro h
  exact absurd h.symm hc

/-- If no occurrence of `pat` starts inside `a`, the leftmost occurrence in
`a ++ b` is the leftmost occurrence in `b`, shifted. -/
lemma firstOccur_append_skip (pat a b : Str)
    (h : ∀ i, i < a.length → List.isPrefixOf pat (List.drop i a ++ b) = false) :
    firstOccur pat (a ++ b) = Option.map (fun n => n + a.length) (firstOccur pat b) := by
  induction a with
  | nil =>
    simp only [List.nil_append, List.length_nil]
    cases firstOccur pat b <;> simp
  | cons c a ih =>
    have h0 : List.isPrefixOf pat (c :: (a ++ b)) = false := by
      have := h 0 (by simp)
      simpa using this
    simp only [List.cons_append, firstOccur, List.append_eq, h0, if_neg, Bool.false_eq_true]
    have ih' := ih (fun i hi => by
      have := h (i + 1) (by simpa using Nat.succ_lt_succ hi)
      simpa using this)
    rw [ih']
    cases firstOccur pat b with
    | none => simp
    | some n => simp [Nat.add_assoc, Nat.add_comm 1 a.length]

/-- A pattern beginning with `<` never occurs in a `<`-free text. -/
lemma firstOccur_none_of_noLt {p' b : Str} (hb : noLt b) :
    firstOccur ('<' :: p') b = none := by
  induction b with
  | nil => simp [firstOccur]
  | cons c t ih =>
    have hc : c ≠ '<' := by
      intro h; exact hb (by simp [h])
    have ht : noLt t := fun h => hb (List.mem_cons_of_mem _ h)
    simp [firstOccur, isPrefixOf_false_of_head_ne hc, ih ht]

/-- Skipping a `<`-free prefix when searching for a pattern that begins
with `<`. -/
lemma firstOccur_append_noLt (p' a b : Str) (ha : noLt a) :
    firstOccur ('<' :: p') (a ++ b) =
      Option.map (fun n => n + a.length) (firstOccur ('<' :: p') b) := by
  apply firstOccur_append_skip
  intro i hi
  have hne : (List.drop i a).length ≠ 0 := by
    simp [List.length_drop]; omega
  cases hd : List.drop i a with
  | nil => simp [hd] at hne
  | cons c t =>
    have hc : c ∈ a := by
      have : c ∈ List.drop i a := by simp [hd]
      exact List.mem_of_mem_drop this
    have : c ≠ '<' := fun h => ha (h ▸ hc)
    simp [hd, isPrefixOf_false_of_head_ne this]

lemma drop_append_of_length (a b : Str) (n : Nat) (h : n = a.length) :
    List.drop n (a ++ b) = b := by
  subst h; exact List.drop_left a b

lemma take_append_of_length (a b : Str) (n : Nat) (h : n = a.length) :
    List.take n (a ++ b) = a := by
  subst h; exact List.take_left a b

/-! ## Wire-format tokens (source: `const TOKENS = { START: '<|start|>', END: '<|end|>', MESSAGE: '<|message|>', CHANNEL: '<|channel|>' }`) -/

def TOK_START : Str := "<|start|>".toList

def TOK_END : Str := "<|end|>".toList

def TOK_MESSAGE : Str := "<|message|>".toList

def TOK_CHANNEL : Str := "<|channel|>".toList

/-- The 10-character token `<|channel|` used by the parser's regex
lookahead `(?=<\|channel\||$)` to end a channel capture. -/
def TOK_LOOK : Str := "<|channel|".toList

/-! ## Data model -/

/-- One message of a conversation (`{role; content; channel?}` in the
source).  An absent channel is `none`; the source tests the channel with
JavaScript truthiness, so the empty string behaves like an absent one. -/
structure HarmonyMessage where
  role : Str
  content : Str
  channel : Option Str

/-- The channel fragment of a rendered message: source
`${channel ? TOKENS.CHANNEL + channel : ''}` (JavaScript truthiness:
`undefined` and `''` both yield the empty fragment). -/
def channelPart : Option Str → Str
  | none => []
  | some ch => if ch.isEmpty then [] else TOK_CHANNEL ++ ch

/-- Source `renderHarmonyMessage(role, content, channel?)`:
`` `${TOKENS.START}${TOKENS.MESSAGE}${role}${channel ? TOKENS.CHANNEL + channel : ''}${TOKENS.END}${content}` ``. -/
def renderHarmonyMessage (role content : Str) (channel : Option Str) : Str :=
  TOK_START ++ TOK_MESSAGE ++ role ++ channelPart channel ++ TOK_END ++ content

/-- Source `encodeHarmonyConversation(messages)`:
`messages.map(m => renderHarmonyMessage(m.role, m.content, m.channel)).join('\n')`. -/
def encodeHarmonyConversation (messages : List HarmonyMessage) : Str :=
  List.intercalate ['\n']
    (messages.map (fun m => renderHarmonyMessage m.role m.content m.channel))

/-- Source `HarmonyEncoder.convertToHarmonyFormat(messages)` (test-guide
variant): dispatches on the role, forwarding the channel only for
assistant turns, and maps any other role — including `tool` — to the
empty string before joining with newlines. -/
def convertToHarmonyFormat (messages : List HarmonyMessage) : Str :=
  List.intercalate ['\n']
    (messages.map (fun m =>
      if m.role = "system".toList then renderHarmonyMessage m.role m.content none
      else if m.role = "user".toList then renderHarmonyMessage m.role m.content none
      else if m.role = "assistant".toList then renderHarmonyMessage m.role m.content m.channel
      else []))

/-! ## JSON values and a model of `JSON.parse`

The source decodes tool-call parameter payloads with `JSON.parse`.  The
model below implements the JSON grammar (ECMA-404) by recursive descent
with explicit fuel.  Numbers keep their validated lexeme verbatim;
duplicate object keys follow the JavaScript rule (original position,
last value). -/

inductive Json where
  | jnull : Json
  | jbool : Bool → Json
  | jnum : Str → Json
  | jstr : Str → Json
  | jarr : List Json → Json
  | jobj : List (Str × Json) → Json
deriving Repr

/-- JSON insignificant whitespace (space, tab, newline, carriage return). -/
def isJsonWs (c : Char) : Bool :=
  [' ', '\t', '\n', '\r'].contains c

def jsonSkipWs (l : Str) : Str := l.dropWhile isJsonWs

/-- One or more decimal digits. -/
def parseDigits (l : Str) : Option (Str × Str) :=
  let ds := l.takeWhile Char.isDigit
  if ds.isEmpty then none else some (ds, l.drop ds.length)

/-- The integer part of a JSON number: `0` alone, or a nonzero digit
followed by digits. -/
def parseIntPart : Str → Option (Str × Str)
  | '0' :: t => some (['0'], t)
  | c :: t =>
    if c.isDigit then
      let ds := (c :: t).takeWhile Char.isDigit
      some (ds, (c :: t).drop ds.length)
    else none
  | [] => none

/-- Optional fraction part `.digits`. -/
def parseFrac : Str → Option (Str × Str)
  | '.' :: t =>
    match parseDigits t with
    | some (ds, r) => some ('.' :: ds, r)
    | none => none
  | l => some ([], l)

/-- Optional exponent part `e|E [+|-] digits`. -/
def parseExp : Str → Option (Str × Str)
  | c :: t =>
    if c == 'e' || c == 'E' then
      match t with
      | s :: t2 =>
        if s == '+' || s == '-' then
          match parseDigits t2 with
          | some (ds, r) => some (c :: s :: ds, r)
          | none => none
        else
          match parseDigits t with
          | some (ds, r) => some (c :: ds, r)
          | none => none
      | [] => none
    else some ([], c :: t)
  | [] => some ([], [])

/-- A JSON number lexeme: `-? int frac? exp?`; returns the lexeme and the
remaining input. -/
def parseNumberLex (l : Str) : Option (Str × Str) :=
  let negPart : Str × Str := match l with
    | '-' :: t => (['-'], t)
    | _ => ([], l)
  match parseIntPart negPart.2 with
  | none => none
  | some (ip, r1) =>
    match parseFrac r1 with
    | none => none
    | some (fp, r2) =>
      match parseExp r2 with
      | none => none
      | some (ep, r3) => some (negPart.1 ++ ip ++ fp ++ ep, r3)

/-- Numeric value of a hexadecimal digit, if any. -/
def hexVal (c : Char) : Option Nat :=
  let n := c.toNat
  if 48 ≤ n ∧ n ≤ 57 then some (n - 48)
  else if 97 ≤ n ∧ n ≤ 102 then some (n - 87)
  else if 65 ≤ n ∧ n ≤ 70 then some (n - 55)
  else none

/-- Body of a JSON string after the opening quote: decodes escapes and
stops at the closing quote.  Raw control characters are rejected, as in
`JSON.parse`.  (Lone `\uXXXX` surrogate halves, which JavaScript keeps
as UTF-16 units, fall outside Lean's `Char` and decode to NUL here; no
claim depends on them.) -/
def parseJStringBody : Nat → Str → Option (Str × Str)
  | 0, _ => none
  | Nat.succ fuel, l =>
    match l with
    | [] => none
    | '"' :: t => some ([], t)
    | '\\' :: e :: t =>
      let cont (c : Char) (r : Str) : Option (Str × Str) :=
        match parseJStringBody fuel r with
        | some (s, r2) => some (c :: s, r2)
        | none => none
      match e with
      | '"' => cont '"' t
      | '\\' => cont '\\' t
      | '/' => cont '/' t
      | 'b' => cont '\x08' t
      | 'f' => cont '\x0c' t
      | 'n' => cont '\n' t
      | 'r' => cont '\r' t
      | 't' => cont '\t' t
      | 'u' =>
        match t with
        | h1 :: h2 :: h3 :: h4 :: t2 =>
          match hexVal h1, hexVal h2, hexVal h3, hexVal h4 with
          | some v1, some v2, some v3, some v4 =>
            cont (Char.ofNat (((v1 * 16 + v2) * 16 + v3) * 16 + v4)) t2
          | _, _, _, _ => none
        | _ => none
      | _ => none
    | c :: t =>
      if c.toNat < 32 then none
      else
        match parseJStringBody fuel t with
        | some (s, r2) => some (c :: s, r2)
        | none => none

/-- JavaScript object-key assignment: an existing key keeps its position
but takes the new value; a new key is appended. -/
def objUpsert (kvs : List (Str × Json)) (k : Str) (v : Json) : List (Str × Json) :=
  if kvs.any (fun p => p.1 == k) then
    kvs.map (fun p => if p.1 == k then (p.1, v) else p)
  else kvs ++ [(k, v)]

mutual

/-- Parse one JSON value (after skipping whitespace); returns the value
and the remaining input. -/
def parseJValue : Nat → Str → Option (Json × Str)
  | 0, _ => none
  | Nat.succ fuel, l =>
    match jsonSkipWs l with
    | 'n' :: 'u' :: 'l' :: 'l' :: t => some (Json.jnull, t)
    | 't' :: 'r' :: 'u' :: 'e' :: t => some (Json.jbool true, t)
    | 'f' :: 'a' :: 'l' :: 's' :: 'e' :: t => some (Json.jbool false, t)
    | '"' :: t =>
      match parseJStringBody (t.length + 1) t with
      | some (s, r) => some (Json.jstr s, r)
      | none => none
    | '[' :: t =>
      (match jsonSkipWs t with
       | ']' :: r => some (Json.jarr [], r)
       | u => parseJArrayElems fuel u [])
    | '\x7b' :: t =>
      (match jsonSkipWs t with
       | '\x7d' :: r => some (Json.jobj [], r)
       | u => parseJObjectMembers fuel u [])
    | u =>
      match parseNumberLex u with
      | some (lex, r) => some (Json.jnum lex, r)
      | none => none

/-- Parse the elements of a non-empty JSON array, accumulating left to
right. -/
def parseJArrayElems : Nat → Str → List Json → Option (Json × Str)
  | 0, _, _ => none
  | Nat.succ fuel, l, acc =>
    match parseJValue fuel l with
    | none => none
    | some (v, r) =>
      match jsonSkipWs r with
      | ',' :: r2 => parseJArrayElems fuel r2 (acc ++ [v])
      | ']' :: r2 => some (Json.jarr (acc ++ [v]), r2)
      | _ => none

/-- Parse the members of a non-empty JSON object, accumulating with the
JavaScript assignment rule. -/
def parseJObjectMembers : Nat → Str → List (Str × Json) → Option (Json × Str)
  | 0, _, _ => none
  | Nat.succ fuel, l, acc =>
    match jsonSkipWs l with
    | '"' :: t =>
      match parseJStringBody (t.length + 1) t with
      | none => none
      | some (k, r) =>
        match jsonSkipWs r with
        | ':' :: r2 =>
          (match parseJValue fuel r2 with
           | none => none
           | some (v, r3) =>
             match jsonSkipWs r3 with
             | ',' :: r4 => parseJObjectMembers fuel r4 (objUpsert acc k v)
             | '\x7d' :: r4 => some (Json.jobj (objUpsert acc k v), r4)
             | _ => none)
        | _ => none
    | _ => none

end

/-- Model of `JSON.parse`: parse one value and require only whitespace to
remain; `none` models the thrown `SyntaxError`. -/
def jsonParse (l : Str) : Option Json :=
  match parseJValue (3 * l.length + 3) l with
  | some (v, r) => if (jsonSkipWs r).isEmpty then some v else none
  | none => none

/-! ## Tool-call extraction

Model of the source regex
`/<tool_call>[\s\S]*?<tool_name>(.*?)<\/tool_name>[\s\S]*?<parameters>([\s\S]*?)<\/parameters>[\s\S]*?<\/tool_call>/g`
run with `exec` in a loop.  The `[\s\S]*?` gaps are lazy, so each tag is
found at its first occurrence after the previous one; the `(.*?)` name
capture cannot cross a line terminator, so a name window containing one
forces the engine to the next `<tool_name>` occurrence.  Failures of the
later tag searches are monotone in the start position (a tag missing
from a suffix is missing from every shorter suffix), so once the tail of
the pattern fails no later start can match and the scan stops, exactly
as the regex engine does. -/

def TC_OPEN : Str := "<tool_call>".toList

def TC_CLOSE : Str := "</tool_call>".toList

def TN_OPEN : Str := "<tool_name>".toList

def TN_CLOSE : Str := "</tool_name>".toList

def PM_OPEN : Str := "<parameters>".toList

def PM_CLOSE : Str := "</parameters>".toList

/-- Line terminators that JavaScript `.` does not match. -/
def isLineTerm (c : Char) : Bool :=
  c == '\n' || c == '\r' || c == '\u2028' || c == '\u2029'

/-- Find the lazy `(.*?)` tool-name capture: the first `<tool_name>`
occurrence whose name window (text up to the first following
`</tool_name>`) is free of line terminators; windows containing one are
skipped, as the regex backtracks past them. -/
def nameSearch : Nat → Str → Option (Str × Str)
  | 0, _ => none
  | Nat.succ fuel, t =>
    match firstOccur TN_OPEN t with
    | none => none
    | some i =>
      let u := t.drop (i + TN_OPEN.length)
      match firstOccur TN_CLOSE u with
      | none => none
      | some j =>
        let nm := u.take j
        if nm.any isLineTerm then nameSearch fuel (t.drop (i + 1))
        else some (nm, u.drop (j + TN_CLOSE.length))

/-- Match the `<parameters>…</parameters>…</tool_call>` tail of the
pattern: each tag at its first occurrence, lazily. -/
def finishBlock (t : Str) : Option (Str × Str) :=
  match firstOccur PM_OPEN t with
  | none => none
  | some k =>
    let u := t.drop (k + PM_OPEN.length)
    match firstOccur PM_CLOSE u with
    | none => none
    | some l =>
      let ps := u.take l
      let v := u.drop (l + PM_CLOSE.length)
      match firstOccur TC_CLOSE v with
      | none => none
      | some m => some (ps, v.drop (m + TC_CLOSE.length))

/-- One regex match attempt: returns the raw name and parameters captures
and the text after the match. -/
def matchToolBlock (t : Str) : Option ((Str × Str) × Str) :=
  match firstOccur TC_OPEN t with
  | none => none
  | some s =>
    let u := t.drop (s + TC_OPEN.length)
    match nameSearch (u.length + 1) u with
    | none => none
    | some (nm, rest) =>
      match finishBlock rest with
      | none => none
      | some (ps, rest2) => some ((nm, ps), rest2)

def scanToolCallsAux : Nat → Str → List (Str × Str)
  | 0, _ => []
  | Nat.succ fuel, t =>
    match matchToolBlock t with
    | none => []
    | some (np, rest) => np :: scanToolCallsAux fuel rest

/-- All raw `(name, parameters)` captures of the tool-call regex over the
whole text, in match order (the `while ((m = re.exec(text)) !== null)`
loop). -/
def scanToolCalls (t : Str) : List (Str × Str) := scanToolCallsAux (t.length + 1) t

/-- A decoded tool-call request (`{ name: m[1].trim(), parameters: JSON.parse(m[2].trim()) }`). -/
structure ToolCall where
  name : Str
  parameters : Json

/-- Decode phase of the exec loop: each raw capture is trimmed and its
parameters payload run through `JSON.parse`; a decode failure skips the
block (the `try { … } catch {}`). -/
def decodeToolCalls (raw : List (Str × Str)) : List ToolCall :=
  raw.filterMap (fun nr =>
    Option.map (fun v => ToolCall.mk (jsTrim nr.1) v) (jsonParse (jsTrim nr.2)))

/-! ## Channel extraction and `parseHarmony` -/

/-- The channel marker `<|channel|>CH<|end|>` that opens channel `CH`. -/
def chanMarker (ch : Str) : Str := TOK_CHANNEL ++ ch ++ TOK_END

/-- The lazy capture `([\s\S]*?)(?=<\|channel\||$)`: everything up to the
first `<|channel|` or the end of the string. -/
def captureUpTo (t : Str) : Str :=
  match firstOccur TOK_LOOK t with
  | some j => t.take j
  | none => t

/-- Model of the source's `section` helper: match
`<\|channel\|>CH<\|end\|>([\s\S]*?)(?=<\|channel\||$)` (non-global, so
at the marker's first occurrence) and trim the capture. -/
def sectionText (ch text : Str) : Option Str :=
  Option.map
    (fun i => jsTrim (captureUpTo (text.drop (i + (chanMarker ch).length))))
    (firstOccur (chanMarker ch) text)

/-- The decoder's result (`interface Parsed`); absent optional fields are
`none`, and `toolCalls` is set only when at least one call decoded
(`if (toolCalls.length) out.toolCalls = toolCalls`). -/
structure Parsed where
  analysis : Option Str
  commentary : Option Str
  final : Option Str
  toolCalls : Option (List ToolCall)

/-- Source `parseHarmony(text)`: three independent channel extractions
plus the tool-call exec loop over the same whole text. -/
def parseHarmony (text : Str) : Parsed :=
  let calls := decodeToolCalls (scanToolCalls text)
  { analysis := sectionText ("analysis".toList) text
    commentary := sectionText ("commentary".toList) text
    final := sectionText ("final".toList) text
    toolCalls := if calls.isEmpty then none else some calls }

/-- Read the field of a `Parsed` that belongs to a channel name; helper
for stating per-channel properties. -/
def channelOf (r : Parsed) (ch : Str) : Option Str :=
  if ch = "analysis".toList then r.analysis
  else if ch = "commentary".toList then r.commentary
  else if ch = "final".toList then r.final
  else none

/-- The three channel names the parser knows. -/
def officialChannels : List Str :=
  ["analysis".toList, "commentary".toList, "final".toList]

/-! ## Tool-catalog rendering -/

/-- One parameter's schema entry (`{ type?, description? }`); both fields
are loose strings in the source and may be absent. -/
structure ParamSpec where
  type : Option Str
  description : Option Str

/-- One tool declaration as consumed by the renderer (`t.function.name`
and `t.function.parameters.properties`, the latter defaulting to the
empty object under `|| {}`).  `params` lists the properties in
`Object.entries` order. -/
structure ToolFunctionDecl where
  name : Str
  params : List (Str × ParamSpec)

/-- Text of `${v.type}` in the renderer: the declared type string
verbatim; an absent field interpolates as the literal `undefined`. -/
def typeTagText : Option Str → Str
  | some t => t
  | none => "undefined".toList

/-- Text of `${v.description || ''}`: the description, or empty when
absent (or empty). -/
def descText : Option Str → Str
  | some d => d
  | none => []

/-- One parameter line of the rendered block:
`` `  ${k}: ${v.type}; // ${v.description || ''}` ``. -/
def paramLine (kv : Str × ParamSpec) : Str :=
  "  ".toList ++ kv.1 ++ ": ".toList ++ typeTagText kv.2.type ++
    "; // ".toList ++ descText kv.2.description

/-- One tool's namespace block:
`` `namespace ${t.function.name} {\n${properties}\n}` `` with the
parameter lines joined by newlines. -/
def renderToolDecl (t : ToolFunctionDecl) : Str :=
  "namespace ".toList ++ t.name ++ " \x7b\n".toList ++
    List.intercalate ['\n'] (t.params.map paramLine) ++ "\n\x7d".toList

/-- Source `toolsToTypeScriptNamespace(tools)`: the blocks joined with a
blank line (`join('\n\n')`), in catalog order. -/
def toolsToTypeScriptNamespace (tools : List ToolFunctionDecl) : Str :=
  List.intercalate "\n\n".toList (tools.map renderToolDecl)

/-- Modelled from the spec: the shown source has no ToolCatalog
constructor (its renderer takes a plain array), while §3 requires "a set
of ToolDeclarations with unique names; duplicate names are a
construction error" and §7 the error kind `DuplicateToolName`. -/
inductive CatalogError where
  | DuplicateToolName
deriving DecidableEq

/-- Modelled from the spec: construct a ToolCatalog from a list of
declarations, failing with `DuplicateToolName` when two declarations
share a name (§3, §7). -/
def mkToolCatalog (ds : List ToolFunctionDecl) : Except CatalogError (List ToolFunctionDecl) :=
  if (ds.map ToolFunctionDecl.name).Nodup then Except.ok ds
  else Except.error CatalogError.DuplicateToolName

/-! ## Occurrence lemmas for concatenated texts -/

lemma take_isPrefixOf_of_append (pat a b : Str) (h : List.isPrefixOf pat (a ++ b) = true) :
    List.isPrefixOf (List.take a.length pat) a = true := by
  induction a generalizing pat with
  | nil => simp [List.isPrefixOf]
  | cons c t ih =>
    cases pat with
    | nil => simp [List.isPrefixOf]
    | cons q qs =>
      simp only [List.cons_append, List.isPrefixOf, Bool.and_eq_true] at h
      simpa [List.isPrefixOf, h.1] using ih qs h.2

/-- Decidable check that no occurrence of `pat` can begin inside `a`,
whatever text follows `a`: at every start position the part of `pat`
that would fall inside `a` fails to match. -/
def noStartIn (pat a : Str) : Bool :=
  (List.range a.length).all
    (fun i => !(List.isPrefixOf (List.take (a.length - i) pat) (List.drop i a)))

lemma firstOccur_append_noStart (pat a b : Str) (h : noStartIn pat a = true) :
    firstOccur pat (a ++ b) = Option.map (fun n => n + a.length) (firstOccur pat b) := by
  apply firstOccur_append_skip
  intro i hi
  cases hbool : List.isPrefixOf pat (List.drop i a ++ b) with
  | false => rfl
  | true =>
    exfalso
    have hpre := take_isPrefixOf_of_append pat (List.drop i a) b hbool
    have hlen : (List.drop i a).length = a.length - i := by simp
    rw [hlen] at hpre
    have hall := List.all_eq_true.mp h i (List.mem_range.mpr hi)
    simp [hpre] at hall

lemma firstOccur_none_of_headLt (pat b : Str) (hpat : pat.head? = some '<')
    (hb : noLt b) : firstOccur pat b = none := by
  cases pat with
  | nil => simp at hpat
  | cons c pr =>
    have hc : c = '<' := by simpa using hpat
    subst hc
    exact firstOccur_none_of_noLt hb

lemma firstOccur_append_noLt_headLt (pat a b : Str) (hpat : pat.head? = some '<')
    (ha : noLt a) :
    firstOccur pat (a ++ b) = Option.map (fun n => n + a.length) (firstOccur pat b) := by
  cases pat with
  | nil => simp at hpat
  | cons c pr =>
    have hc : c = '<' := by simpa using hpat
    subst hc
    exact firstOccur_append_noLt pr a b ha

lemma firstOccur_append_none_noStart (pat a b : Str) (h : noStartIn pat a = true)
    (hpat : pat.head? = some '<') (hb : noLt b) :
    firstOccur pat (a ++ b) = none := by
  rw [firstOccur_append_noStart pat a b h, firstOccur_none_of_headLt pat b hpat hb]
  rfl

@[simp] lemma TC_OPEN_length : TC_OPEN.length = 11 := rfl

@[simp] lemma TC_CLOSE_length : TC_CLOSE.length = 12 := rfl

@[simp] lemma TN_OPEN_length : TN_OPEN.length = 11 := rfl

@[simp] lemma TN_CLOSE_length : TN_CLOSE.length = 12 := rfl

@[simp] lemma PM_OPEN_length : PM_OPEN.length = 12 := rfl

@[simp] lemma PM_CLOSE_length : PM_CLOSE.length = 13 := rfl

/-! ## Characterizing the scan on well-delimited block families -/

/-- A tool-call block with no gap text between its tags, as the §4.2
template instructs the model to emit. -/
def mkToolBlock (n p : Str) : Str :=
  TC_OPEN ++ TN_OPEN ++ n ++ TN_CLOSE ++ PM_OPEN ++ p ++ PM_CLOSE ++ TC_CLOSE

@[simp] lemma mkToolBlock_length (n p : Str) :
    (mkToolBlock n p).length = 71 + n.length + p.length := by
  simp [mkToolBlock]
  omega

lemma matchToolBlock_none_of_no_open (t : Str) (h : firstOccur TC_OPEN t = none) :
    matchToolBlock t = none := by
  unfold matchToolBlock
  rw [h]



lemma matchToolBlock_eq_of_open (t : Str) (s : Nat) (h : firstOccur TC_OPEN t = some s) :
    matchToolBlock t =
      (match nameSearch ((t.drop (s + TC_OPEN.length)).length + 1) (t.drop (s + TC_OPEN.length)) with
       | none => none
       | some (nm, rest) =>
         match finishBlock rest with
         | none => none
         | some (ps, rest2) => some ((nm, ps), rest2)) := by
  unfold matchToolBlock
  rw [h]

lemma matchToolBlock_clean (g n p rest : Str) (hg : noLt g) (hn : noLt n)
    (hnl : n.any isLineTerm = false) (hp : noLt p) :
    matchToolBlock (g ++ (mkToolBlock n p ++ rest)) = some ((n, p), rest) := by
  have hb : mkToolBlock n p ++ rest =
      TC_OPEN ++ (TN_OPEN ++ (n ++ (TN_CLOSE ++ (PM_OPEN ++ (p ++ (PM_CLOSE ++ (TC_CLOSE ++ rest))))))) := by
    simp [mkToolBlock]
  rw [hb]
  have e1 : firstOccur TC_OPEN
      (g ++ (TC_OPEN ++ (TN_OPEN ++ (n ++ (TN_CLOSE ++ (PM_OPEN ++ (p ++ (PM_CLOSE ++ (TC_CLOSE ++ rest))))))))) =
      some g.length := by
    rw [firstOccur_append_noLt_headLt TC_OPEN g _ rfl hg, firstOccur_self_append]
    simp
  have e2 : (g ++ (TC_OPEN ++ (TN_OPEN ++ (n ++ (TN_CLOSE ++ (PM_OPEN ++ (p ++ (PM_CLOSE ++ (TC_CLOSE ++ rest))))))))).drop
      (g.length + TC_OPEN.length) =
      TN_OPEN ++ (n ++ (TN_CLOSE ++ (PM_OPEN ++ (p ++ (PM_CLOSE ++ (TC_CLOSE ++ rest)))))) := by
    rw [← List.append_assoc]
    exact drop_append_of_length _ _ _ (by simp)
  have ename : nameSearch
      ((TN_OPEN ++ (n ++ (TN_CLOSE ++ (PM_OPEN ++ (p ++ (PM_CLOSE ++ (TC_CLOSE ++ rest))))))).length + 1)
      (TN_OPEN ++ (n ++ (TN_CLOSE ++ (PM_OPEN ++ (p ++ (PM_CLOSE ++ (TC_CLOSE ++ rest))))))) =
      some (n, PM_OPEN ++ (p ++ (PM_CLOSE ++ (TC_CLOSE ++ rest)))) := by
    have f0 : firstOccur TN_OPEN
        (TN_OPEN ++ (n ++ (TN_CLOSE ++ (PM_OPEN ++ (p ++ (PM_CLOSE ++ (TC_CLOSE ++ rest))))))) = some 0 :=
      firstOccur_self_append _ _
    have d1 : (TN_OPEN ++ (n ++ (TN_CLOSE ++ (PM_OPEN ++ (p ++ (PM_CLOSE ++ (TC_CLOSE ++ rest))))))).drop
        (0 + TN_OPEN.length) =
        n ++ (TN_CLOSE ++ (PM_OPEN ++ (p ++ (PM_CLOSE ++ (TC_CLOSE ++ rest))))) := by
      rw [Nat.zero_add]
      exact drop_append_of_length _ _ _ rfl
    have f1 : firstOccur TN_CLOSE
        (n ++ (TN_CLOSE ++ (PM_OPEN ++ (p ++ (PM_CLOSE ++ (TC_CLOSE ++ rest)))))) = some n.length := by
      rw [firstOccur_append_noLt_headLt TN_CLOSE n _ rfl hn, firstOccur_self_append]
      simp
    have t1 : (n ++ (TN_CLOSE ++ (PM_OPEN ++ (p ++ (PM_CLOSE ++ (TC_CLOSE ++ rest)))))).take n.length = n :=
      take_append_of_length _ _ _ rfl
    have d2 : (n ++ (TN_CLOSE ++ (PM_OPEN ++ (p ++ (PM_CLOSE ++ (TC_CLOSE ++ rest)))))).drop
        (n.length + TN_CLOSE.length) =
        PM_OPEN ++ (p ++ (PM_CLOSE ++ (TC_CLOSE ++ rest))) := by
      rw [← List.append_assoc]
      exact drop_append_of_length _ _ _ (by simp)
    simp only [nameSearch, f0, d1, f1, t1, d2, hnl]
    simp
  have efin : finishBlock (PM_OPEN ++ (p ++ (PM_CLOSE ++ (TC_CLOSE ++ rest)))) = some (p, rest) := by
    have f2 : firstOccur PM_OPEN (PM_OPEN ++ (p ++ (PM_CLOSE ++ (TC_CLOSE ++ rest)))) = some 0 :=
      firstOccur_self_append _ _
    have d3 : (PM_OPEN ++ (p ++ (PM_CLOSE ++ (TC_CLOSE ++ rest)))).drop (0 + PM_OPEN.length) =
        p ++ (PM_CLOSE ++ (TC_CLOSE ++ rest)) := by
      rw [Nat.zero_add]
      exact drop_append_of_length _ _ _ rfl
    have f3 : firstOccur PM_CLOSE (p ++ (PM_CLOSE ++ (TC_CLOSE ++ rest))) = some p.length := by
      rw [firstOccur_append_noLt_headLt PM_CLOSE p _ rfl hp, firstOccur_self_append]
      simp
    have t2 : (p ++ (PM_CLOSE ++ (TC_CLOSE ++ rest))).take p.length = p :=
      take_append_of_length _ _ _ rfl
    have d4 : (p ++ (PM_CLOSE ++ (TC_CLOSE ++ rest))).drop (p.length + PM_CLOSE.length) =
        TC_CLOSE ++ rest := by
      rw [← List.append_assoc]
      exact drop_append_of_length _ _ _ (by simp)
    have f4 : firstOccur TC_CLOSE (TC_CLOSE ++ rest) = some 0 := firstOccur_self_append _ _
    have d5 : (TC_CLOSE ++ rest).drop (0 + TC_CLOSE.length) = rest := by
      rw [Nat.zero_add]
      exact drop_append_of_length _ _ _ rfl
    simp only [finishBlock, f2, d3, f3, t2, d4, f4, d5]
  rw [matchToolBlock_eq_of_open _ _ e1, e2, ename]
  dsimp only
  rw [efin]

/-- Gap texts and blocks interleaved: `interleaveBlocks tail [(g₁,n₁,p₁),…]`
is `g₁ ++ block₁ ++ … ++ tail`. -/
def interleaveBlocks (tail : Str) : List (Str × Str × Str) → Str
  | [] => tail
  | (g, n, p) :: rest => g ++ (mkToolBlock n p ++ interleaveBlocks tail rest)

/-- Cleanliness conditions for one `(gap, name, params)` entry: the gap,
name and parameters contain no `<`, and the name no line terminator. -/
def cleanEntry (e : Str × Str × Str) : Prop :=
  noLt e.1 ∧ noLt e.2.1 ∧ e.2.1.any isLineTerm = false ∧ noLt e.2.2

instance (e : Str × Str × Str) : Decidable (cleanEntry e) := by
  unfold cleanEntry
  infer_instance

lemma scanToolCallsAux_clean (L : List (Str × Str × Str)) (tail : Str) (fuel : Nat)
    (hL : ∀ e ∈ L, cleanEntry e) (htail : noLt tail)
    (hfuel : (interleaveBlocks tail L).length < fuel) :
    scanToolCallsAux fuel (interleaveBlocks tail L) = L.map (fun e => (e.2.1, e.2.2)) := by
  induction L generalizing fuel with
  | nil =>
    cases fuel with
    | zero => exact absurd hfuel (Nat.not_lt_zero _)
    | succ f =>
      have hnone : matchToolBlock tail = none :=
        matchToolBlock_none_of_no_open _ (firstOccur_none_of_headLt TC_OPEN tail rfl htail)
      simp [interleaveBlocks, scanToolCallsAux, hnone]
  | cons e L ih =>
    obtain ⟨g, n, p⟩ := e
    have hce := hL (g, n, p) (by simp)
    obtain ⟨hg, hn, hnl, hp⟩ := hce
    cases fuel with
    | zero => exact absurd hfuel (Nat.not_lt_zero _)
    | succ f =>
      have hm : matchToolBlock (interleaveBlocks tail ((g, n, p) :: L)) =
          some ((n, p), interleaveBlocks tail L) := by
        show matchToolBlock (g ++ (mkToolBlock n p ++ interleaveBlocks tail L)) = _
        exact matchToolBlock_clean g n p _ hg hn hnl hp
      have hsz : (interleaveBlocks tail ((g, n, p) :: L)).length =
          g.length + (71 + n.length + p.length) + (interleaveBlocks tail L).length := by
        show (g ++ (mkToolBlock n p ++ interleaveBlocks tail L)).length = _
        simp
        omega
      have hlen : (interleaveBlocks tail L).length < f := by omega
      have ihx := ih f (fun x hx => hL x (List.mem_cons_of_mem _ hx)) hlen
      simp [scanToolCallsAux, hm, ihx]

lemma scanToolCalls_clean (L : List (Str × Str × Str)) (tail : Str)
    (hL : ∀ e ∈ L, cleanEntry e) (htail : noLt tail) :
    scanToolCalls (interleaveBlocks tail L) = L.map (fun e => (e.2.1, e.2.2)) :=
  scanToolCallsAux_clean L tail _ hL htail (Nat.lt_succ_self _)

/-! ## Small append/intercalate helpers -/

lemma intercalate_singleton (sep x : Str) : List.intercalate sep [x] = x := by
  simp [List.intercalate]

lemma intercalate_cons_of_ne_nil (sep x y : Str) (l : List Str) :
    List.intercalate sep (x :: y :: l) = x ++ (sep ++ List.intercalate sep (y :: l)) := by
  simp [List.intercalate, List.intersperse]

lemma occursIn_parts (pat s u : Str) : occursIn pat (s ++ (pat ++ u)) = true := by
  induction s with
  | nil =>
    simp [occursIn, firstOccur_self_append]
  | cons c t ih =>
    simp only [occursIn, List.cons_append, firstOccur]
    by_cases h : List.isPrefixOf pat (c :: (t ++ (pat ++ u))) = true
    · simp [h]
    · simp only [occursIn] at ih
      simp [h, ih]

lemma intercalate_mem_parts (sep : Str) (l : List Str) (x : Str) (hx : x ∈ l) :
    ∃ s u, List.intercalate sep l = s ++ (x ++ u) := by
  induction l with
  | nil => cases hx
  | cons y l ih =>
    rcases List.mem_cons.mp hx with h | h
    · subst h
      cases l with
      | nil => exact ⟨[], [], by simp [intercalate_singleton]⟩
      | cons z l' =>
        exact ⟨[], sep ++ List.intercalate sep (z :: l'), by
          rw [intercalate_cons_of_ne_nil]
          rfl⟩
    · obtain ⟨s, u, hsu⟩ := ih h
      cases l with
      | nil => cases h
      | cons z l' =>
        refine ⟨y ++ sep ++ s, u, ?_⟩
        rw [intercalate_cons_of_ne_nil, hsu]
        simp [List.append_assoc]

/-! ## C10 -/

/-- C10: rendering a message with the empty string as channel produces
exactly the same wire text as rendering it with no channel: the
channel-boundary token and channel literal are omitted in both cases. -/
theorem renderHarmonyMessage_empty_channel (role content : Str) :
    renderHarmonyMessage role content (some []) = renderHarmonyMessage role content none := rfl

/-! ## C3 -/

/-- C3 (counterexample): encoding a turn whose role `wizard` is outside
the fixed role set succeeds and renders the unrecognized role verbatim
into the wire text; no `InvalidRole` failure exists in
`encodeHarmonyConversation`. -/
theorem invalidRole_counterexample :
    encodeHarmonyConversation [HarmonyMessage.mk ("wizard".toList) ("hi".toList) none] =
      "<|start|><|message|>wizard<|end|>hi".toList ∧
    occursIn ("wizard".toList)
      (encodeHarmonyConversation [HarmonyMessage.mk ("wizard".toList) ("hi".toList) none]) = true :=
  ⟨rfl, rfl⟩

/-- C3 (amended): the encoder performs no role validation: for any role
outside {system, user, assistant}, `encodeHarmonyConversation` renders
the turn with the role literal unchanged (never failing), while the
class variant `convertToHarmonyFormat` silently maps such a turn —
including role `tool` — to the empty string. -/
theorem unknown_role_rendered (role content : Str) (ch : Option Str)
    (h : role ∉ [("system".toList : Str), "user".toList, "assistant".toList]) :
    encodeHarmonyConversation [HarmonyMessage.mk role content ch] =
      TOK_START ++ TOK_MESSAGE ++ role ++ channelPart ch ++ TOK_END ++ content ∧
    convertToHarmonyFormat [HarmonyMessage.mk role content ch] = [] := by
  have h1 : role ≠ "system".toList := fun hh => h (by simp [hh])
  have h2 : role ≠ "user".toList := fun hh => h (by simp [hh])
  have h3 : role ≠ "assistant".toList := fun hh => h (by simp [hh])
  constructor
  · show List.intercalate ['\n'] [renderHarmonyMessage role content ch] = _
    rw [intercalate_singleton, renderHarmonyMessage]
  · show List.intercalate ['\n']
      [if role = "system".toList then renderHarmonyMessage role content none
       else if role = "user".toList then renderHarmonyMessage role content none
       else if role = "assistant".toList then renderHarmonyMessage role content ch
       else []] = []
    rw [if_neg h1, if_neg h2, if_neg h3, intercalate_singleton]

/-- C3 amended claim, exercised at role `tool`: rendered verbatim by
`encodeHarmonyConversation`, silently dropped by
`convertToHarmonyFormat`. -/
theorem unknown_role_rendered_witness :
    encodeHarmonyConversation [HarmonyMessage.mk ("tool".toList) ("ok".toList) none] =
      TOK_START ++ TOK_MESSAGE ++ "tool".toList ++ channelPart none ++ TOK_END ++ "ok".toList ∧
    convertToHarmonyFormat [HarmonyMessage.mk ("tool".toList) ("ok".toList) none] = [] :=
  unknown_role_rendered ("tool".toList) ("ok".toList) none (by decide)

/-! ## C4 -/

/-- C4 (counterexample): the renderer does not map unknown or absent
types to the wildcard token `any`, and it emits the `; // ` comment
marker even for an empty description: a parameter of unknown type
`frobnicate` renders verbatim, an absent type renders as the literal
`undefined`, and no `any` appears. -/
theorem toolNamespace_counterexample :
    toolsToTypeScriptNamespace
        [ToolFunctionDecl.mk ("f".toList) [("p".toList, ParamSpec.mk (some ("frobnicate".toList)) none)]] =
      "namespace f \x7b\n  p: frobnicate; // \n\x7d".toList ∧
    occursIn ("any".toList)
      (toolsToTypeScriptNamespace
        [ToolFunctionDecl.mk ("f".toList) [("p".toList, ParamSpec.mk (some ("frobnicate".toList)) none)]]) = false ∧
    occursIn ("; // ".toList)
      (toolsToTypeScriptNamespace
        [ToolFunctionDecl.mk ("f".toList) [("p".toList, ParamSpec.mk (some ("frobnicate".toList)) none)]]) = true ∧
    toolsToTypeScriptNamespace
        [ToolFunctionDecl.mk ("g".toList) [("q".toList, ParamSpec.mk none none)]] =
      "namespace g \x7b\n  q: undefined; // \n\x7d".toList :=
  ⟨rfl, rfl, rfl, rfl⟩

/-- C4 (amended): for every catalog, every tool and every parameter, the
rendered output contains the parameter's line consisting of the name,
the declared type string verbatim (`undefined` when absent, with no
mapping to fixed tokens and no `any` wildcard), then the `; // ` marker
— emitted even when the description is empty — and the description text
(empty when absent). -/
theorem toolNamespace_param_line (tools : List ToolFunctionDecl) (t : ToolFunctionDecl)
    (ht : t ∈ tools) (kv : Str × ParamSpec) (hkv : kv ∈ t.params) :
    occursIn
      ("  ".toList ++ kv.1 ++ ": ".toList ++ typeTagText kv.2.type ++
        "; // ".toList ++ descText kv.2.description)
      (toolsToTypeScriptNamespace tools) = true := by
  show occursIn (paramLine kv) (toolsToTypeScriptNamespace tools) = true
  obtain ⟨s1, u1, h1⟩ := intercalate_mem_parts ("\n\n".toList) (tools.map renderToolDecl)
    (renderToolDecl t) (List.mem_map_of_mem renderToolDecl ht)
  obtain ⟨s2, u2, h2⟩ := intercalate_mem_parts ['\n'] (t.params.map paramLine)
    (paramLine kv) (List.mem_map_of_mem paramLine hkv)
  have hw : toolsToTypeScriptNamespace tools =
      (s1 ++ ("namespace ".toList ++ t.name ++ " \x7b\n".toList ++ s2)) ++
        (paramLine kv ++ (u2 ++ ("\n\x7d".toList ++ u1))) := by
    show List.intercalate ("\n\n".toList) (tools.map renderToolDecl) = _
    rw [h1]
    rw [show renderToolDecl t =
      "namespace ".toList ++ t.name ++ " \x7b\n".toList ++
        List.intercalate ['\n'] (t.params.map paramLine) ++ "\n\x7d".toList from rfl]
    rw [h2]
    simp [List.append_assoc]
  rw [hw]
  exact occursIn_parts _ _ _

/-- C4 amended claim at a concrete catalog: the line for a `string`-typed
described parameter appears in the rendered output. -/
theorem toolNamespace_param_line_witness :
    occursIn
      ("  ".toList ++ "q".toList ++ ": ".toList ++ typeTagText (some ("string".toList)) ++
        "; // ".toList ++ descText (some ("the query".toList)))
      (toolsToTypeScriptNamespace
        [ToolFunctionDecl.mk ("search".toList)
          [("q".toList, ParamSpec.mk (some ("string".toList)) (some ("the query".toList)))]]) = true :=
  toolNamespace_param_line
    [ToolFunctionDecl.mk ("search".toList)
      [("q".toList, ParamSpec.mk (some ("string".toList)) (some ("the query".toList)))]]
    (ToolFunctionDecl.mk ("search".toList)
      [("q".toList, ParamSpec.mk (some ("string".toList)) (some ("the query".toList)))])
    (by simp)
    ("q".toList, ParamSpec.mk (some ("string".toList)) (some ("the query".toList))) (by simp)

/-! ## C6 -/

/-- C6: constructing a ToolCatalog from two declarations both named
`search` fails with `DuplicateToolName`, and every successfully
constructed catalog has pairwise-distinct tool names. -/
theorem mkToolCatalog_duplicate :
    (mkToolCatalog
        [ToolFunctionDecl.mk ("search".toList) [], ToolFunctionDecl.mk ("search".toList) []] =
      Except.error CatalogError.DuplicateToolName) ∧
    ∀ ds cat, mkToolCatalog ds = Except.ok cat →
      (cat.map ToolFunctionDecl.name).Nodup := by
  constructor
  · rfl
  · intro ds cat h
    unfold mkToolCatalog at h
    by_cases hnd : (ds.map ToolFunctionDecl.name).Nodup
    · rw [if_pos hnd] at h
      cases h
      exact hnd
    · rw [if_neg hnd] at h
      cases h

/-- C6 at a concrete input: a singleton catalog constructs successfully
and its name list is duplicate-free. -/
theorem mkToolCatalog_duplicate_witness :
    (([ToolFunctionDecl.mk ("search".toList) []].map ToolFunctionDecl.name)).Nodup :=
  mkToolCatalog_duplicate.2 [ToolFunctionDecl.mk ("search".toList) []]
    [ToolFunctionDecl.mk ("search".toList) []] rfl

/-! ## C2 -/

/-- C2: a response containing one structurally complete tool-call block
whose parameters payload fails JSON decoding parses successfully with
the block dropped: no ToolCallRequest is produced and `toolCalls` stays
empty (absent). -/
theorem malformed_toolcall_dropped (pre n p post : Str)
    (hpre : noLt pre) (hn : noLt n) (hnl : n.any isLineTerm = false) (hp : noLt p)
    (hpost : noLt post) (hbad : jsonParse (jsTrim p) = none) :
    (parseHarmony (pre ++ (mkToolBlock n p ++ post))).toolCalls = none := by
  have hscan : scanToolCalls (pre ++ (mkToolBlock n p ++ post)) = [(n, p)] := by
    have hs := scanToolCalls_clean [(pre, n, p)] post
      (by
        intro e he
        simp only [List.mem_singleton] at he
        subst he
        exact ⟨hpre, hn, hnl, hp⟩) hpost
    simpa [interleaveBlocks] using hs
  simp [parseHarmony, hscan, decodeToolCalls, hbad]

/-- C2 at the spec's concrete input: the only block's payload is
`{not json`; `toolCalls` is empty. -/
theorem malformed_toolcall_dropped_witness :
    (parseHarmony (([] : Str) ++ (mkToolBlock ("get_time".toList) ("\x7bnot json".toList) ++ ([] : Str)))).toolCalls = none :=
  malformed_toolcall_dropped [] ("get_time".toList) ("\x7bnot json".toList) []
    (by decide) (by decide) rfl (by decide) (by decide) rfl

/-! ## C5 -/

/-- C5: with two tool-call blocks in a response, well-formed blocks are
returned in left-to-right textual order: if the first block's payload
fails to decode and the second decodes, exactly one ToolCallRequest
results, carrying the second block's name and parameters; if both
decode, both appear in textual order. -/
theorem mixed_toolcalls_order (s0 n1 p1 s1 n2 p2 s2 : Str)
    (h0 : noLt s0) (hn1 : noLt n1) (hl1 : n1.any isLineTerm = false) (hp1 : noLt p1)
    (h1 : noLt s1) (hn2 : noLt n2) (hl2 : n2.any isLineTerm = false) (hp2 : noLt p2)
    (h2 : noLt s2) :
    (∀ v2, jsonParse (jsTrim p1) = none → jsonParse (jsTrim p2) = some v2 →
      (parseHarmony (s0 ++ (mkToolBlock n1 p1 ++ (s1 ++ (mkToolBlock n2 p2 ++ s2))))).toolCalls =
        some [ToolCall.mk (jsTrim n2) v2]) ∧
    (∀ v1 v2, jsonParse (jsTrim p1) = some v1 → jsonParse (jsTrim p2) = some v2 →
      (parseHarmony (s0 ++ (mkToolBlock n1 p1 ++ (s1 ++ (mkToolBlock n2 p2 ++ s2))))).toolCalls =
        some [ToolCall.mk (jsTrim n1) v1, ToolCall.mk (jsTrim n2) v2]) := by
  have hscan : scanToolCalls (s0 ++ (mkToolBlock n1 p1 ++ (s1 ++ (mkToolBlock n2 p2 ++ s2)))) =
      [(n1, p1), (n2, p2)] := by
    have hs := scanToolCalls_clean [(s0, n1, p1), (s1, n2, p2)] s2
      (by
        intro e he
        simp only [List.mem_cons, List.mem_singleton] at he
        rcases he with he | he | he
        · subst he; exact ⟨h0, hn1, hl1, hp1⟩
        · subst he; exact ⟨h1, hn2, hl2, hp2⟩
        · cases he) h2
    simpa [interleaveBlocks] using hs
  constructor
  · intro v2 hb hg
    simp [parseHarmony, hscan, decodeToolCalls, hb, hg]
  · intro v1 v2 hg1 hg2
    simp [parseHarmony, hscan, decodeToolCalls, hg1, hg2]

/-- C5 at the spec's concrete input: first block malformed, second names
`get_time` with payload `{"x": 1}`; exactly one request results. -/
theorem mixed_toolcalls_order_witness :
    (parseHarmony (([] : Str) ++ (mkToolBlock ("bad".toList) ("\x7bnot json".toList) ++
        (([] : Str) ++ (mkToolBlock ("get_time".toList) ("\x7b\"x\": 1\x7d".toList) ++ ([] : Str)))))).toolCalls =
      some [ToolCall.mk (jsTrim ("get_time".toList))
        (Json.jobj [("x".toList, Json.jnum ("1".toList))])] :=
  (mixed_toolcalls_order [] ("bad".toList) ("\x7bnot json".toList) [] ("get_time".toList)
      ("\x7b\"x\": 1\x7d".toList) [] (by decide) (by decide) rfl (by decide) (by decide)
      (by decide) rfl (by decide) (by decide)).1
    (Json.jobj [("x".toList, Json.jnum ("1".toList))]) rfl rfl

/-! ## Channel-extraction lemmas -/

lemma sectionText_found (P ch content : Str)
    (hstart : noStartIn (chanMarker ch) P = true) (hc : noLt content) :
    sectionText ch (P ++ (chanMarker ch ++ content)) = some (jsTrim content) := by
  have h1 : firstOccur (chanMarker ch) (P ++ (chanMarker ch ++ content)) = some P.length := by
    rw [firstOccur_append_noStart _ _ _ hstart, firstOccur_self_append]
    simp
  unfold sectionText
  rw [h1]
  show some (jsTrim (captureUpTo
    ((P ++ (chanMarker ch ++ content)).drop (P.length + (chanMarker ch).length)))) = _
  have h2 : (P ++ (chanMarker ch ++ content)).drop (P.length + (chanMarker ch).length) = content := by
    rw [← List.append_assoc]
    exact drop_append_of_length _ _ _ (by simp)
  rw [h2]
  unfold captureUpTo
  rw [firstOccur_none_of_headLt TOK_LOOK content rfl hc]

lemma sectionText_not_found (P ch content : Str)
    (hstart : noStartIn (chanMarker ch) P = true) (hc : noLt content) :
    sectionText ch (P ++ content) = none := by
  unfold sectionText
  rw [firstOccur_append_none_noStart _ _ _ hstart rfl hc]
  rfl

lemma scanToolCalls_empty_concrete (P content : Str)
    (hstart : noStartIn TC_OPEN P = true) (hc : noLt content) :
    scanToolCalls (P ++ content) = [] := by
  have hm : matchToolBlock (P ++ content) = none :=
    matchToolBlock_none_of_no_open _ (firstOccur_append_none_noStart _ _ _ hstart rfl hc)
  show scanToolCallsAux ((P ++ content).length + 1) (P ++ content) = []
  simp [scanToolCallsAux, hm]

/-- The capture of a channel's first marker runs up to the next
`<|channel|` token: with the same marker occurring twice, the field
comes from the text between the two occurrences, whatever follows. -/
lemma sectionText_first_marker (a b c ch : Str) (ha : noLt a) (hb : noLt b) :
    sectionText ch (a ++ (chanMarker ch ++ (b ++ (chanMarker ch ++ c)))) = some (jsTrim b) := by
  have hhead : (chanMarker ch).head? = some '<' := rfl
  have h1 : firstOccur (chanMarker ch) (a ++ (chanMarker ch ++ (b ++ (chanMarker ch ++ c)))) =
      some a.length := by
    rw [firstOccur_append_noLt_headLt _ _ _ hhead ha, firstOccur_self_append]
    simp
  unfold sectionText
  rw [h1]
  show some (jsTrim (captureUpTo
    ((a ++ (chanMarker ch ++ (b ++ (chanMarker ch ++ c)))).drop
      (a.length + (chanMarker ch).length)))) = _
  have h2 : (a ++ (chanMarker ch ++ (b ++ (chanMarker ch ++ c)))).drop
      (a.length + (chanMarker ch).length) = b ++ (chanMarker ch ++ c) := by
    rw [← List.append_assoc]
    exact drop_append_of_length _ _ _ (by simp)
  rw [h2]
  unfold captureUpTo
  have hsplit : chanMarker ch ++ c = TOK_LOOK ++ ('>' :: (ch ++ (TOK_END ++ c))) := by
    show (TOK_CHANNEL ++ ch ++ TOK_END) ++ c = _
    rw [show TOK_CHANNEL = TOK_LOOK ++ ['>'] from rfl]
    simp
  have h3 : firstOccur TOK_LOOK (b ++ (chanMarker ch ++ c)) = some b.length := by
    rw [hsplit, firstOccur_append_noLt_headLt TOK_LOOK b _ rfl hb, firstOccur_self_append]
    simp
  rw [h3]
  show some (jsTrim (List.take b.length (b ++ (chanMarker ch ++ c)))) = _
  rw [take_append_of_length _ _ _ rfl]

lemma channelOf_analysis (r : Parsed) : channelOf r ("analysis".toList) = r.analysis := rfl

lemma channelOf_commentary (r : Parsed) : channelOf r ("commentary".toList) = r.commentary := rfl

lemma channelOf_final (r : Parsed) : channelOf r ("final".toList) = r.final := rfl

/-! ## C9 -/

/-- C9: when the same channel marker occurs more than once, the parser
populates the field only from the first occurrence — the text after the
first marker up to the next channel-boundary token — and every later
occurrence (and everything after it) is ignored. -/
theorem channel_first_occurrence_wins (a b c ch : Str)
    (hch : ch ∈ officialChannels) (ha : noLt a) (hb : noLt b) :
    channelOf (parseHarmony (a ++ (chanMarker ch ++ (b ++ (chanMarker ch ++ c))))) ch =
      some (jsTrim b) := by
  have hs := sectionText_first_marker a b c ch ha hb
  simp only [officialChannels, List.mem_cons, List.mem_singleton, List.not_mem_nil, or_false] at hch
  rcases hch with rfl | rfl | rfl
  · rw [channelOf_analysis]
    simpa [parseHarmony] using hs
  · rw [channelOf_commentary]
    simpa [parseHarmony] using hs
  · rw [channelOf_final]
    simpa [parseHarmony] using hs

/-- C9 at a concrete input: two `final` markers; the field comes from the
first, the second block's text (`second`) is ignored. -/
theorem channel_first_occurrence_wins_witness :
    channelOf (parseHarmony (("x: ".toList) ++ (chanMarker ("final".toList) ++
        (" first ".toList ++ (chanMarker ("final".toList) ++ "second".toList))))) ("final".toList) =
      some (jsTrim (" first ".toList)) :=
  channel_first_occurrence_wins ("x: ".toList) (" first ".toList) ("second".toList)
    ("final".toList) (by decide) (by decide) (by decide)

lemma toolCalls_of_scan_nil (t : Str) (h : scanToolCalls t = []) :
    (parseHarmony t).toolCalls = none := by
  simp [parseHarmony, h, decodeToolCalls]

/-! ## C1 -/

/-- C1: round-trip identity on content.  Encoding a single well-formed
assistant turn with a known channel (content free of wire-format `<`
characters) and batch-parsing the result reproduces that channel's
content exactly, modulo surrounding-whitespace trimming; the other two
channels and `toolCalls` stay absent. -/
theorem roundTrip_single_turn (ch content : Str)
    (hch : ch ∈ officialChannels) (hc : noLt content) :
    channelOf (parseHarmony (encodeHarmonyConversation
        [HarmonyMessage.mk ("assistant".toList) content (some ch)])) ch = some (jsTrim content) ∧
    (∀ ch', ch' ∈ officialChannels → ch' ≠ ch →
      channelOf (parseHarmony (encodeHarmonyConversation
        [HarmonyMessage.mk ("assistant".toList) content (some ch)])) ch' = none) ∧
    (parseHarmony (encodeHarmonyConversation
        [HarmonyMessage.mk ("assistant".toList) content (some ch)])).toolCalls = none := by
  simp only [officialChannels, List.mem_cons, List.mem_singleton, List.not_mem_nil, or_false] at hch
  rcases hch with rfl | rfl | rfl
  · -- channel `analysis`
    have hw1 : encodeHarmonyConversation
        [HarmonyMessage.mk ("assistant".toList) content (some ("analysis".toList))] =
        ("<|start|><|message|>assistant".toList) ++ (chanMarker ("analysis".toList) ++ content) := by
      show List.intercalate ['\n']
        [renderHarmonyMessage ("assistant".toList) content (some ("analysis".toList))] = _
      rw [intercalate_singleton]
      rfl
    have hw2 : encodeHarmonyConversation
        [HarmonyMessage.mk ("assistant".toList) content (some ("analysis".toList))] =
        ("<|start|><|message|>assistant<|channel|>analysis<|end|>".toList) ++ content := by
      show List.intercalate ['\n']
        [renderHarmonyMessage ("assistant".toList) content (some ("analysis".toList))] = _
      rw [intercalate_singleton]
      rfl
    have hpos := sectionText_found ("<|start|><|message|>assistant".toList)
      ("analysis".toList) content (by decide) hc
    have hneg1 := sectionText_not_found
      ("<|start|><|message|>assistant<|channel|>analysis<|end|>".toList)
      ("commentary".toList) content (by decide) hc
    have hneg2 := sectionText_not_found
      ("<|start|><|message|>assistant<|channel|>analysis<|end|>".toList)
      ("final".toList) content (by decide) hc
    have hscan := scanToolCalls_empty_concrete
      ("<|start|><|message|>assistant<|channel|>analysis<|end|>".toList) content (by decide) hc
    refine ⟨?_, ?_, ?_⟩
    · rw [hw1, channelOf_analysis]
      simpa [parseHarmony] using hpos
    · intro ch' hch' hne
      simp only [officialChannels, List.mem_cons, List.mem_singleton, List.not_mem_nil,
        or_false] at hch'
      rcases hch' with rfl | rfl | rfl
      · exact absurd rfl hne
      · rw [hw2, channelOf_commentary]
        simpa [parseHarmony] using hneg1
      · rw [hw2, channelOf_final]
        simpa [parseHarmony] using hneg2
    · rw [hw2]
      exact toolCalls_of_scan_nil _ hscan
  · -- channel `commentary`
    have hw1 : encodeHarmonyConversation
        [HarmonyMessage.mk ("assistant".toList) content (some ("commentary".toList))] =
        ("<|start|><|message|>assistant".toList) ++ (chanMarker ("commentary".toList) ++ content) := by
      show List.intercalate ['\n']
        [renderHarmonyMessage ("assistant".toList) content (some ("commentary".toList))] = _
      rw [intercalate_singleton]
      rfl
    have hw2 : encodeHarmonyConversation
        [HarmonyMessage.mk ("assistant".toList) content (some ("commentary".toList))] =
        ("<|start|><|message|>assistant<|channel|>commentary<|end|>".toList) ++ content := by
      show List.intercalate ['\n']
        [renderHarmonyMessage ("assistant".toList) content (some ("commentary".toList))] = _
      rw [intercalate_singleton]
      rfl
    have hpos := sectionText_found ("<|start|><|message|>assistant".toList)
      ("commentary".toList) content (by decide) hc
    have hneg1 := sectionText_not_found
      ("<|start|><|message|>assistant<|channel|>commentary<|end|>".toList)
      ("analysis".toList) content (by decide) hc
    have hneg2 := sectionText_not_found
      ("<|start|><|message|>assistant<|channel|>commentary<|end|>".toList)
      ("final".toList) content (by decide) hc
    have hscan := scanToolCalls_empty_concrete
      ("<|start|><|message|>assistant<|channel|>commentary<|end|>".toList) content (by decide) hc
    refine ⟨?_, ?_, ?_⟩
    · rw [hw1, channelOf_commentary]
      simpa [parseHarmony] using hpos
    · intro ch' hch' hne
      simp only [officialChannels, List.mem_cons, List.mem_singleton, List.not_mem_nil,
        or_false] at hch'
      rcases hch' with rfl | rfl | rfl
      · rw [hw2, channelOf_analysis]
        simpa [parseHarmony] using hneg1
      · exact absurd rfl hne
      · rw [hw2, channelOf_final]
        simpa [parseHarmony] using hneg2
    · rw [hw2]
      exact toolCalls_of_scan_nil _ hscan
  · -- channel `final`
    have hw1 : encodeHarmonyConversation
        [HarmonyMessage.mk ("assistant".toList) content (some ("final".toList))] =
        ("<|start|><|message|>assistant".toList) ++ (chanMarker ("final".toList) ++ content) := by
      show List.intercalate ['\n']
        [renderHarmonyMessage ("assistant".toList) content (some ("final".toList))] = _
      rw [intercalate_singleton]
      rfl
    have hw2 : encodeHarmonyConversation
        [HarmonyMessage.mk ("assistant".toList) content (some ("final".toList))] =
        ("<|start|><|message|>assistant<|channel|>final<|end|>".toList) ++ content := by
      show List.intercalate ['\n']
        [renderHarmonyMessage ("assistant".toList) content (some ("final".toList))] = _
      rw [intercalate_singleton]
      rfl
    have hpos := sectionText_found ("<|start|><|message|>assistant".toList)
      ("final".toList) content (by decide) hc
    have hneg1 := sectionText_not_found
      ("<|start|><|message|>assistant<|channel|>final<|end|>".toList)
      ("analysis".toList) content (by decide) hc
    have hneg2 := sectionText_not_found
      ("<|start|><|message|>assistant<|channel|>final<|end|>".toList)
      ("commentary".toList) content (by decide) hc
    have hscan := scanToolCalls_empty_concrete
      ("<|start|><|message|>assistant<|channel|>final<|end|>".toList) content (by decide) hc
    refine ⟨?_, ?_, ?_⟩
    · rw [hw1, channelOf_final]
      simpa [parseHarmony] using hpos
    · intro ch' hch' hne
      simp only [officialChannels, List.mem_cons, List.mem_singleton, List.not_mem_nil,
        or_false] at hch'
      rcases hch' with rfl | rfl | rfl
      · rw [hw2, channelOf_analysis]
        simpa [parseHarmony] using hneg1
      · rw [hw2, channelOf_commentary]
        simpa [parseHarmony] using hneg2
      · exact absurd rfl hne
    · rw [hw2]
      exact toolCalls_of_scan_nil _ hscan

/-- C1 at the spec's concrete input: channel `final`, content
`Here's the answer` survives the round trip; `analysis`, `commentary`
and `toolCalls` are absent. -/
theorem roundTrip_single_turn_witness :
    channelOf (parseHarmony (encodeHarmonyConversation
        [HarmonyMessage.mk ("assistant".toList) ("Here\x27s the answer".toList)
          (some ("final".toList))])) ("final".toList) =
      some (jsTrim ("Here\x27s the answer".toList)) ∧
    channelOf (parseHarmony (encodeHarmonyConversation
        [HarmonyMessage.mk ("assistant".toList) ("Here\x27s the answer".toList)
          (some ("final".toList))])) ("analysis".toList) = none :=
  ⟨(roundTrip_single_turn ("final".toList) ("Here\x27s the answer".toList)
      (by decide) (by decide)).1,
   (roundTrip_single_turn ("final".toList) ("Here\x27s the answer".toList)
      (by decide) (by decide)).2.1 ("analysis".toList) (by decide) (by decide)⟩

/-! ## Extension stability of searches

Feeding more text to the right of a buffer never changes an
already-found leftmost occurrence, nor re-validates an already-refuted
one whose pattern fit inside the buffer. -/

lemma isPrefixOf_length_le (p q : Str) (h : List.isPrefixOf p q = true) :
    p.length ≤ q.length := by
  induction p generalizing q with
  | nil => simp
  | cons a p ih =>
    cases q with
    | nil => simp [List.isPrefixOf] at h
    | cons b q =>
      simp only [List.isPrefixOf, Bool.and_eq_true] at h
      simpa using ih q h.2

lemma bool_eq_false {b : Bool} (h : ¬ b = true) : b = false := by
  cases b
  · rfl
  · exact absurd rfl h

lemma isPrefixOf_nil_left (l : Str) : List.isPrefixOf ([] : Str) l = true := by
  cases l <;> rfl

lemma firstOccur_nil_pat (t : Str) : firstOccur ([] : Str) t = some 0 := by
  cases t with
  | nil => simp [firstOccur, isPrefixOf_nil_left]
  | cons c u => simp [firstOccur, isPrefixOf_nil_left]

lemma isPrefixOf_extend_true (p t y : Str) (h : List.isPrefixOf p t = true) :
    List.isPrefixOf p (t ++ y) = true := by
  induction p generalizing t with
  | nil => simp [List.isPrefixOf]
  | cons a p ih =>
    cases t with
    | nil => simp [List.isPrefixOf] at h
    | cons b t =>
      simp only [List.isPrefixOf, Bool.and_eq_true] at h
      simp only [List.cons_append, List.isPrefixOf, Bool.and_eq_true]
      exact ⟨h.1, ih t h.2⟩

lemma isPrefixOf_extend_false (p q y : Str) (h : List.isPrefixOf p q = false)
    (hlen : p.length ≤ q.length) : List.isPrefixOf p (q ++ y) = false := by
  induction p generalizing q with
  | nil => simp [List.isPrefixOf] at h
  | cons a p ih =>
    cases q with
    | nil => simp at hlen
    | cons b q =>
      simp only [List.isPrefixOf] at h
      simp only [List.cons_append, List.isPrefixOf]
      cases hab : (a == b) with
      | false => simp
      | true =>
        simp only [hab, Bool.true_and] at h ⊢
        exact ih q h (by simpa using hlen)

lemma firstOccur_isPrefixOf (pat t : Str) (i : Nat) (h : firstOccur pat t = some i) :
    List.isPrefixOf pat (t.drop i) = true := by
  induction t generalizing i with
  | nil =>
    simp only [firstOccur] at h
    by_cases hp : List.isPrefixOf pat [] = true
    · rw [if_pos hp] at h
      cases h
      exact hp
    · rw [if_neg hp] at h
      cases h
  | cons c t ih =>
    simp only [firstOccur] at h
    by_cases hp : List.isPrefixOf pat (c :: t) = true
    · rw [if_pos hp] at h
      cases h
      exact hp
    · rw [if_neg hp] at h
      cases hrec : firstOccur pat t with
      | none => rw [hrec] at h; cases h
      | some j =>
        rw [hrec] at h
        have h2 : j + 1 = i := Option.some.inj h
        subst h2
        exact ih j hrec

lemma firstOccur_bound (pat t : Str) (i : Nat) (h : firstOccur pat t = some i) :
    i + pat.length ≤ t.length := by
  have hp := firstOccur_isPrefixOf pat t i h
  have hle := isPrefixOf_length_le _ _ hp
  have hi : i ≤ t.length := by
    by_contra hgt
    push_neg at hgt
    rw [List.drop_eq_nil_of_le (Nat.le_of_lt hgt)] at hp
    have hlen0 := isPrefixOf_length_le _ _ hp
    have hpat : pat = [] := by
      cases pat with
      | nil => rfl
      | cons a q => simp at hlen0
    subst hpat
    rw [firstOccur_nil_pat] at h
    have h0 : (0 : Nat) = i := Option.some.inj h
    omega
  have := List.length_drop i t
  omega

lemma firstOccur_extend (pat t y : Str) (i : Nat) (h : firstOccur pat t = some i) :
    firstOccur pat (t ++ y) = some i := by
  induction t generalizing i with
  | nil =>
    simp only [firstOccur] at h
    by_cases hp : List.isPrefixOf pat [] = true
    · rw [if_pos hp] at h
      cases h
      have hpat : pat = [] := by
        cases pat with
        | nil => rfl
        | cons a p => simp [List.isPrefixOf] at hp
      subst hpat
      exact firstOccur_of_isPrefixOf (isPrefixOf_nil_left _)
    · rw [if_neg hp] at h
      cases h
  | cons c t ih =>
    have hbound := firstOccur_bound pat (c :: t) i h
    simp only [firstOccur] at h
    by_cases hp : List.isPrefixOf pat (c :: t) = true
    · rw [if_pos hp] at h
      cases h
      exact firstOccur_of_isPrefixOf (isPrefixOf_extend_true _ _ _ hp)
    · rw [if_neg hp] at h
      cases hrec : firstOccur pat t with
      | none => rw [hrec] at h; cases h
      | some j =>
        rw [hrec] at h
        have hij : j + 1 = i := Option.some.inj h
        subst hij
        have hplen : pat.length ≤ (c :: t).length := by
          simp at hbound ⊢
          omega
        have hfalse : List.isPrefixOf pat ((c :: t) ++ y) = false :=
          isPrefixOf_extend_false _ _ _ (bool_eq_false hp) hplen
        simp only [List.cons_append, firstOccur]
        simp only [List.cons_append] at hfalse
        rw [if_neg (by simp [hfalse])]
        simp only [List.append_eq]
        rw [ih j hrec]
        rfl

lemma drop_append_le (t y : Str) (k : Nat) (hk : k ≤ t.length) :
    (t ++ y).drop k = t.drop k ++ y := by
  rw [List.drop_append_eq_append_drop]
  rw [Nat.sub_eq_zero_of_le hk]
  rfl

lemma take_append_le (t y : Str) (k : Nat) (hk : k ≤ t.length) :
    (t ++ y).take k = t.take k := by
  rw [List.take_append_eq_append_take]
  rw [Nat.sub_eq_zero_of_le hk]
  simp

/-! ## Streaming parser (spec §3 `ParserState`, §4.4)

The shown source parses only complete strings; the streaming variant is
required by the spec but absent from the source, so the definitions
below are modelled from the spec's words and marked as such. -/

/-- Modelled from the spec: JavaScript-style map assignment into
`completedChannels` (`completedChannels[ch] = text`, §4.4 step 2): an
existing key keeps its position and takes the new value, a new key is
appended. -/
def setChan (m : List (Str × Str)) (k v : Str) : List (Str × Str) :=
  if m.any (fun q => q.1 == k) then
    m.map (fun q => if q.1 == k then (q.1, v) else q)
  else m ++ [(k, v)]

/-- Look a channel's accumulated text up in `completedChannels`. -/
def lookupChan (m : List (Str × Str)) (k : Str) : Option Str :=
  Option.map Prod.snd (m.find? (fun q => q.1 == k))

/-- Modelled from the spec: `ParserState` (§3) — `buffer` holds
unconsumed text for channel recognition, `toolCallBuffer` unconsumed
text awaiting complete tool-call blocks (channel extraction and
tool-call extraction are independent passes, §4.3), plus the open
channel, the completed channels and the completed calls. -/
structure ParserState where
  buffer : Str
  channelInProgress : Option Str
  completedChannels : List (Str × Str)
  toolCallBuffer : Str
  completedToolCalls : List ToolCall

/-- Modelled from the spec: one recognition attempt of §4.4 step 2 on
the channel buffer.  With a channel open, a complete `<|channel|` token
closes it (the next channel-open marker or end-of-stream signals the
close), moving the text accumulated since the open — trimmed — into
`completedChannels` and leaving the token buffered as the next open
candidate.  With no channel open, a complete channel-open marker
`<|channel|>NAME<|end|>` opens `NAME` and is discarded from the buffer
together with the junk before it.  Incomplete tokens stay buffered
(`none`: no progress), so a token split across fragments is never
missed (§4.4 step 4). -/
def chanStep :
    Str × Option Str × List (Str × Str) → Option (Str × Option Str × List (Str × Str))
  | (buf, some ch, chans) =>
    match firstOccur TOK_LOOK buf with
    | some i => some (buf.drop i, none, setChan chans ch (jsTrim (buf.take i)))
    | none => none
  | (buf, none, chans) =>
    match firstOccur TOK_LOOK buf with
    | none => none
    | some i =>
      match buf.drop (i + TOK_LOOK.length) with
      | [] => none
      | c0 :: u =>
        if c0 = '>' then
          match firstOccur TOK_END u with
          | some j => some (u.drop (j + TOK_END.length), some (u.take j), chans)
          | none => none
        else none

/-- Run `chanStep` to quiescence under explicit fuel. -/
def streamChanLoop : Nat → Str × Option Str × List (Str × Str) → Str × Option Str × List (Str × Str)
  | 0, s => s
  | Nat.succ fuel, s =>
    match chanStep s with
    | some s2 => streamChanLoop fuel s2
    | none => s

/-- Modelled from the spec: one recognition attempt of §4.4 step 3 on
the tool-call buffer: a complete block (matched exactly as in batch
mode) is decoded — decode failures drop the block — appended to
`completedToolCalls`, and removed from the buffer; an incomplete block
remains buffered across calls. -/
def toolStep : Str × List ToolCall → Option (Str × List ToolCall)
  | (buf, calls) =>
    match matchToolBlock buf with
    | some (np, rest) =>
      some (rest, calls ++
        (Option.map (fun v => ToolCall.mk (jsTrim np.1) v) (jsonParse (jsTrim np.2))).toList)
    | none => none

/-- Run `toolStep` to quiescence under explicit fuel. -/
def streamToolLoop : Nat → Str × List ToolCall → Str × List ToolCall
  | 0, s => s
  | Nat.succ fuel, s =>
    match toolStep s with
    | some s2 => streamToolLoop fuel s2
    | none => s

/-- Modelled from the spec: the initial `ParserState`, created once per
logical response (§3). -/
def initParserState : ParserState :=
  ParserState.mk [] none [] [] []

/-- Modelled from the spec: feed one fragment (§4.4): append it to both
buffers, then repeatedly recognize complete tokens — channel markers on
`buffer`, tool-call blocks on `toolCallBuffer` — until no complete
token remains.  The fuel bounds below suffice for quiescence: every
channel event either consumes text or closes a channel, every tool
event consumes text. -/
def streamFeed (st : ParserState) (frag : Str) : ParserState :=
  let cb := st.buffer ++ frag
  let tb := st.toolCallBuffer ++ frag
  let c := streamChanLoop (2 * cb.length + 2) (cb, st.channelInProgress, st.completedChannels)
  let t := streamToolLoop (tb.length + 1) (tb, st.completedToolCalls)
  ParserState.mk c.1 c.2.1 c.2.2 t.1 t.2

/-- Modelled from the spec: finalize (§4.4): flush a still-open channel
into `completedChannels` as if a close marker had just arrived, then
build the ParsedResult from the completed channels and calls (the
`toolCalls` field is set only when calls exist, as in batch mode). -/
def streamFinalize (st : ParserState) : Parsed :=
  let chans := match st.channelInProgress with
    | some ch => setChan st.completedChannels ch (jsTrim st.buffer)
    | none => st.completedChannels
  { analysis := lookupChan chans ("analysis".toList)
    commentary := lookupChan chans ("commentary".toList)
    final := lookupChan chans ("final".toList)
    toolCalls := if st.completedToolCalls.isEmpty then none else some st.completedToolCalls }

/-! ## Quiescence measures and fuel independence -/

@[simp] lemma TOK_LOOK_length : TOK_LOOK.length = 10 := rfl

@[simp] lemma TOK_END_length : TOK_END.length = 7 := rfl

/-- Strictly decreasing measure of the channel machinery: every event
consumes buffered text or closes a channel. -/
def chanMeasure : Str × Option Str × List (Str × Str) → Nat
  | (buf, none, _) => 2 * buf.length + 1
  | (buf, some _, _) => 2 * buf.length + 2

lemma chanMeasure_pos (s : Str × Option Str × List (Str × Str)) : 1 ≤ chanMeasure s := by
  obtain ⟨b, op, c⟩ := s
  cases op <;> (simp only [chanMeasure]; omega)

lemma chanStep_decrease {s s2 : Str × Option Str × List (Str × Str)}
    (h : chanStep s = some s2) : chanMeasure s2 < chanMeasure s := by
  obtain ⟨buf, op, chans⟩ := s
  cases op with
  | some ch =>
    simp only [chanStep] at h
    cases hf : firstOccur TOK_LOOK buf with
    | none => rw [hf] at h; cases h
    | some i =>
      rw [hf] at h
      have hb := firstOccur_bound _ _ _ hf
      simp only [TOK_LOOK_length] at hb
      cases h
      simp only [chanMeasure, List.length_drop]
      omega
  | none =>
    simp only [chanStep] at h
    cases hf : firstOccur TOK_LOOK buf with
    | none => rw [hf] at h; cases h
    | some i =>
      rw [hf] at h
      dsimp only at h
      have hb := firstOccur_bound _ _ _ hf
      simp only [TOK_LOOK_length] at hb
      cases hd : buf.drop (i + TOK_LOOK.length) with
      | nil =>
        rw [hd] at h
        cases h
      | cons c0 u =>
        rw [hd] at h
        dsimp only at h
        by_cases hc0 : c0 = '>'
        · rw [if_pos hc0] at h
          cases hf2 : firstOccur TOK_END u with
          | none => rw [hf2] at h; cases h
          | some j =>
            rw [hf2] at h
            have hb2 := firstOccur_bound _ _ _ hf2
            simp only [TOK_END_length] at hb2
            cases h
            have hu : u.length + 1 = buf.length - (i + 10) := by
              have := congrArg List.length hd
              simp only [List.length_drop, TOK_LOOK_length, List.length_cons] at this
              omega
            simp only [chanMeasure, List.length_drop]
            omega
        · rw [if_neg hc0] at h
          cases h

lemma chanLoop_congr (f1 f2 : Nat) (s : Str × Option Str × List (Str × Str))
    (h1 : chanMeasure s ≤ f1) (h2 : chanMeasure s ≤ f2) :
    streamChanLoop f1 s = streamChanLoop f2 s := by
  induction f1 generalizing s f2 with
  | zero =>
    have := chanMeasure_pos s
    omega
  | succ f1 ih =>
    have hm2 := chanMeasure_pos s
    obtain ⟨f2', rfl⟩ : ∃ k, f2 = k + 1 := ⟨f2 - 1, by omega⟩
    cases hstep : chanStep s with
    | none => simp [streamChanLoop, hstep]
    | some s2 =>
      simp only [streamChanLoop, hstep]
      have hd := chanStep_decrease hstep
      exact ih f2' s2 (by omega) (by omega)

/-- The canonical full run of the channel machinery. -/
def chanRun (s : Str × Option Str × List (Str × Str)) : Str × Option Str × List (Str × Str) :=
  streamChanLoop (chanMeasure s) s

lemma chanLoop_eq_run (f : Nat) (s : Str × Option Str × List (Str × Str))
    (hf : chanMeasure s ≤ f) : streamChanLoop f s = chanRun s :=
  chanLoop_congr f (chanMeasure s) s hf (Nat.le_refl _)

lemma chanRun_eq (s : Str × Option Str × List (Str × Str)) :
    chanRun s = (match chanStep s with
      | some s2 => chanRun s2
      | none => s) := by
  have hm := chanMeasure_pos s
  obtain ⟨k, hk⟩ : ∃ k, chanMeasure s = k + 1 := ⟨chanMeasure s - 1, by omega⟩
  cases hstep : chanStep s with
  | none =>
    show streamChanLoop (chanMeasure s) s = s
    rw [hk]
    simp [streamChanLoop, hstep]
  | some s2 =>
    show streamChanLoop (chanMeasure s) s = chanRun s2
    rw [hk]
    simp only [streamChanLoop, hstep]
    exact chanLoop_eq_run k s2 (by have := chanStep_decrease hstep; omega)

/-- Measure for the tool machinery: buffered length. -/
def toolMeasure (s : Str × List ToolCall) : Nat := s.1.length

lemma nameSearch_rest_le (f : Nat) (u nm r : Str)
    (h : nameSearch f u = some (nm, r)) : r.length + 23 ≤ u.length := by
  induction f generalizing u with
  | zero => simp [nameSearch] at h
  | succ f ih =>
    simp only [nameSearch] at h
    cases hf1 : firstOccur TN_OPEN u with
    | none => rw [hf1] at h; cases h
    | some i =>
      rw [hf1] at h
      dsimp only at h
      have hb1 := firstOccur_bound _ _ _ hf1
      simp only [TN_OPEN_length] at hb1
      cases hf2 : firstOccur TN_CLOSE (u.drop (i + TN_OPEN.length)) with
      | none => rw [hf2] at h; cases h
      | some j =>
        rw [hf2] at h
        dsimp only at h
        have hb2 := firstOccur_bound _ _ _ hf2
        simp only [TN_CLOSE_length, List.length_drop, TN_OPEN_length] at hb2
        by_cases hl : ((u.drop (i + TN_OPEN.length)).take j).any isLineTerm = true
        · rw [if_pos hl] at h
          have := ih _ h
          simp only [List.length_drop] at this
          omega
        · rw [if_neg hl] at h
          cases h
          simp only [List.length_drop, TN_OPEN_length, TN_CLOSE_length]
          omega

lemma finishBlock_rest_le (t ps r : Str) (h : finishBlock t = some (ps, r)) :
    r.length ≤ t.length := by
  simp only [finishBlock] at h
  cases hf1 : firstOccur PM_OPEN t with
  | none => rw [hf1] at h; cases h
  | some k =>
    rw [hf1] at h
    dsimp only at h
    cases hf2 : firstOccur PM_CLOSE (t.drop (k + PM_OPEN.length)) with
    | none => rw [hf2] at h; cases h
    | some l =>
      rw [hf2] at h
      dsimp only at h
      cases hf3 : firstOccur TC_CLOSE
          ((t.drop (k + PM_OPEN.length)).drop (l + PM_CLOSE.length)) with
      | none => rw [hf3] at h; cases h
      | some m =>
        rw [hf3] at h
        dsimp only at h
        cases h
        simp only [List.length_drop]
        omega

lemma matchToolBlock_rest_lt (t : Str) (np : Str × Str) (r : Str)
    (h : matchToolBlock t = some (np, r)) : r.length < t.length := by
  simp only [matchToolBlock] at h
  cases hf1 : firstOccur TC_OPEN t with
  | none => rw [hf1] at h; cases h
  | some s =>
    rw [hf1] at h
    dsimp only at h
    have hb1 := firstOccur_bound _ _ _ hf1
    simp only [TC_OPEN_length] at hb1
    cases hns : nameSearch ((t.drop (s + TC_OPEN.length)).length + 1) (t.drop (s + TC_OPEN.length)) with
    | none => rw [hns] at h; cases h
    | some nr =>
      rw [hns] at h
      obtain ⟨nm, r1⟩ := nr
      dsimp only at h
      have hle1 := nameSearch_rest_le _ _ _ _ hns
      simp only [List.length_drop, TC_OPEN_length] at hle1
      cases hfin : finishBlock r1 with
      | none => rw [hfin] at h; cases h
      | some pr =>
        rw [hfin] at h
        obtain ⟨ps, r2⟩ := pr
        dsimp only at h
        have hle2 := finishBlock_rest_le _ _ _ hfin
        cases h
        omega

lemma toolStep_decrease {s s2 : Str × List ToolCall} (h : toolStep s = some s2) :
    toolMeasure s2 < toolMeasure s := by
  obtain ⟨buf, calls⟩ := s
  simp only [toolStep] at h
  cases hm : matchToolBlock buf with
  | none => rw [hm] at h; cases h
  | some nr =>
    rw [hm] at h
    obtain ⟨np, rest⟩ := nr
    dsimp only at h
    cases h
    exact matchToolBlock_rest_lt _ _ _ hm

lemma toolLoop_congr (f1 f2 : Nat) (s : Str × List ToolCall)
    (h1 : toolMeasure s < f1) (h2 : toolMeasure s < f2) :
    streamToolLoop f1 s = streamToolLoop f2 s := by
  induction f1 generalizing s f2 with
  | zero => omega
  | succ f1 ih =>
    obtain ⟨f2', rfl⟩ : ∃ k, f2 = k + 1 := ⟨f2 - 1, by omega⟩
    cases hstep : toolStep s with
    | none => simp [streamToolLoop, hstep]
    | some s2 =>
      simp only [streamToolLoop, hstep]
      have hd := toolStep_decrease hstep
      exact ih f2' s2 (by omega) (by omega)

/-- The canonical full run of the tool machinery. -/
def toolRun (s : Str × List ToolCall) : Str × List ToolCall :=
  streamToolLoop (toolMeasure s + 1) s

lemma toolLoop_eq_run (f : Nat) (s : Str × List ToolCall)
    (hf : toolMeasure s < f) : streamToolLoop f s = toolRun s :=
  toolLoop_congr f (toolMeasure s + 1) s hf (Nat.lt_succ_self _)

lemma toolRun_eq (s : Str × List ToolCall) :
    toolRun s = (match toolStep s with
      | some s2 => toolRun s2
      | none => s) := by
  cases hstep : toolStep s with
  | none =>
    show streamToolLoop (toolMeasure s + 1) s = s
    simp [streamToolLoop, hstep]
  | some s2 =>
    show streamToolLoop (toolMeasure s + 1) s = toolRun s2
    simp only [streamToolLoop, hstep]
    exact toolLoop_eq_run _ s2 (by have := toolStep_decrease hstep; omega)

/-! ## Extension stability of the machine steps -/

lemma chanStep_extend {b : Str} {op : Option Str} {c : List (Str × Str)}
    {b2 : Str} {op2 : Option Str} {c2 : List (Str × Str)} (y : Str)
    (h : chanStep (b, op, c) = some (b2, op2, c2)) :
    chanStep (b ++ y, op, c) = some (b2 ++ y, op2, c2) := by
  cases op with
  | some ch =>
    simp only [chanStep] at h ⊢
    cases hf : firstOccur TOK_LOOK b with
    | none => rw [hf] at h; cases h
    | some i =>
      rw [hf] at h
      dsimp only at h
      have hb := firstOccur_bound _ _ _ hf
      simp only [TOK_LOOK_length] at hb
      cases h
      rw [firstOccur_extend _ _ y _ hf]
      dsimp only
      rw [drop_append_le _ _ _ (by omega), take_append_le _ _ _ (by omega)]
  | none =>
    simp only [chanStep] at h ⊢
    cases hf : firstOccur TOK_LOOK b with
    | none => rw [hf] at h; cases h
    | some i =>
      rw [hf] at h
      dsimp only at h
      have hb := firstOccur_bound _ _ _ hf
      simp only [TOK_LOOK_length] at hb
      rw [firstOccur_extend _ _ y _ hf]
      dsimp only
      cases hd : b.drop (i + TOK_LOOK.length) with
      | nil => rw [hd] at h; cases h
      | cons c0 u =>
        rw [hd] at h
        dsimp only at h
        have hdx : (b ++ y).drop (i + TOK_LOOK.length) = c0 :: (u ++ y) := by
          rw [drop_append_le _ _ _ (by simp only [TOK_LOOK_length]; omega), hd]
          rfl
        rw [hdx]
        dsimp only
        have hulen : u.length = b.length - (i + 11) := by
          have := congrArg List.length hd
          simp only [List.length_drop, TOK_LOOK_length, List.length_cons] at this
          omega
        by_cases hc0 : c0 = '>'
        · rw [if_pos hc0] at h ⊢
          cases hf2 : firstOccur TOK_END u with
          | none => rw [hf2] at h; cases h
          | some j =>
            rw [hf2] at h
            dsimp only at h
            have hb2 := firstOccur_bound _ _ _ hf2
            simp only [TOK_END_length] at hb2
            cases h
            rw [firstOccur_extend _ _ y _ hf2]
            dsimp only
            rw [drop_append_le _ _ _ (by simp only [TOK_END_length]; omega),
              take_append_le _ _ _ (by omega)]
        · rw [if_neg hc0] at h
          cases h

lemma nameSearch_extend (f : Nat) (u nm r y : Str) (f2 : Nat)
    (h : nameSearch f u = some (nm, r)) (hf : f ≤ f2) :
    nameSearch f2 (u ++ y) = some (nm, r ++ y) := by
  induction f generalizing u f2 with
  | zero => simp [nameSearch] at h
  | succ f ih =>
    obtain ⟨f2x, rfl⟩ : ∃ k, f2 = k + 1 := ⟨f2 - 1, by omega⟩
    simp only [nameSearch] at h ⊢
    cases hf1 : firstOccur TN_OPEN u with
    | none => rw [hf1] at h; cases h
    | some i =>
      rw [hf1] at h
      dsimp only at h
      have hb1 := firstOccur_bound _ _ _ hf1
      simp only [TN_OPEN_length] at hb1
      rw [firstOccur_extend _ _ y _ hf1]
      dsimp only
      have hux : (u ++ y).drop (i + TN_OPEN.length) = u.drop (i + TN_OPEN.length) ++ y :=
        drop_append_le _ _ _ (by simp only [TN_OPEN_length]; omega)
      rw [hux]
      cases hf2 : firstOccur TN_CLOSE (u.drop (i + TN_OPEN.length)) with
      | none => rw [hf2] at h; cases h
      | some j =>
        rw [hf2] at h
        dsimp only at h
        have hb2 := firstOccur_bound _ _ _ hf2
        simp only [TN_CLOSE_length, List.length_drop, TN_OPEN_length] at hb2
        rw [firstOccur_extend _ _ y _ hf2]
        dsimp only
        rw [take_append_le _ _ _ (by simp only [List.length_drop, TN_OPEN_length]; omega)]
        by_cases hl : ((u.drop (i + TN_OPEN.length)).take j).any isLineTerm = true
        · rw [if_pos hl] at h ⊢
          have hix : (u ++ y).drop (i + 1) = u.drop (i + 1) ++ y :=
            drop_append_le _ _ _ (by omega)
          rw [hix]
          exact ih _ _ h (by omega)
        · rw [if_neg hl] at h ⊢
          cases h
          rw [drop_append_le _ _ _
            (by simp only [List.length_drop, TN_OPEN_length, TN_CLOSE_length]; omega)]

lemma finishBlock_extend (t ps r y : Str) (h : finishBlock t = some (ps, r)) :
    finishBlock (t ++ y) = some (ps, r ++ y) := by
  simp only [finishBlock] at h ⊢
  cases hf1 : firstOccur PM_OPEN t with
  | none => rw [hf1] at h; cases h
  | some k =>
    rw [hf1] at h
    dsimp only at h
    have hb1 := firstOccur_bound _ _ _ hf1
    simp only [PM_OPEN_length] at hb1
    rw [firstOccur_extend _ _ y _ hf1]
    dsimp only
    have h1 : (t ++ y).drop (k + PM_OPEN.length) = t.drop (k + PM_OPEN.length) ++ y :=
      drop_append_le _ _ _ (by simp only [PM_OPEN_length]; omega)
    rw [h1]
    cases hf2 : firstOccur PM_CLOSE (t.drop (k + PM_OPEN.length)) with
    | none => rw [hf2] at h; cases h
    | some l =>
      rw [hf2] at h
      dsimp only at h
      have hb2 := firstOccur_bound _ _ _ hf2
      simp only [PM_CLOSE_length, List.length_drop, PM_OPEN_length] at hb2
      rw [firstOccur_extend _ _ y _ hf2]
      dsimp only
      rw [take_append_le _ _ _ (by simp only [List.length_drop, PM_OPEN_length]; omega)]
      have h2 : ((t.drop (k + PM_OPEN.length)) ++ y).drop (l + PM_CLOSE.length) =
          (t.drop (k + PM_OPEN.length)).drop (l + PM_CLOSE.length) ++ y :=
        drop_append_le _ _ _
          (by simp only [List.length_drop, PM_OPEN_length, PM_CLOSE_length]; omega)
      rw [h2]
      cases hf3 : firstOccur TC_CLOSE ((t.drop (k + PM_OPEN.length)).drop (l + PM_CLOSE.length)) with
      | none => rw [hf3] at h; cases h
      | some m =>
        rw [hf3] at h
        dsimp only at h
        have hb3 := firstOccur_bound _ _ _ hf3
        simp only [TC_CLOSE_length, List.length_drop] at hb3
        cases h
        rw [firstOccur_extend _ _ y _ hf3]
        dsimp only
        rw [drop_append_le _ _ _
          (by simp only [List.length_drop, TC_CLOSE_length]; omega)]

lemma matchToolBlock_extend (t : Str) (np : Str × Str) (r y : Str)
    (h : matchToolBlock t = some (np, r)) :
    matchToolBlock (t ++ y) = some (np, r ++ y) := by
  simp only [matchToolBlock] at h ⊢
  cases hf1 : firstOccur TC_OPEN t with
  | none => rw [hf1] at h; cases h
  | some s =>
    rw [hf1] at h
    dsimp only at h
    have hb1 := firstOccur_bound _ _ _ hf1
    simp only [TC_OPEN_length] at hb1
    rw [firstOccur_extend _ _ y _ hf1]
    dsimp only
    have hux : (t ++ y).drop (s + TC_OPEN.length) = t.drop (s + TC_OPEN.length) ++ y :=
      drop_append_le _ _ _ (by simp only [TC_OPEN_length]; omega)
    rw [hux]
    cases hns : nameSearch ((t.drop (s + TC_OPEN.length)).length + 1)
        (t.drop (s + TC_OPEN.length)) with
    | none => rw [hns] at h; cases h
    | some nr =>
      obtain ⟨nm, r1⟩ := nr
      rw [hns] at h
      dsimp only at h
      have hnsx := nameSearch_extend _ _ _ _ y
        ((t.drop (s + TC_OPEN.length) ++ y).length + 1) hns
        (by simp only [List.length_append]; omega)
      rw [hnsx]
      dsimp only
      cases hfin : finishBlock r1 with
      | none => rw [hfin] at h; cases h
      | some pr =>
        obtain ⟨ps, r2⟩ := pr
        rw [hfin] at h
        dsimp only at h
        cases h
        rw [finishBlock_extend _ _ _ y hfin]

lemma toolStep_extend {b : Str} {calls : List ToolCall} {b2 : Str}
    {calls2 : List ToolCall} (y : Str)
    (h : toolStep (b, calls) = some (b2, calls2)) :
    toolStep (b ++ y, calls) = some (b2 ++ y, calls2) := by
  simp only [toolStep] at h ⊢
  cases hm : matchToolBlock b with
  | none => rw [hm] at h; cases h
  | some nr =>
    obtain ⟨np, rest⟩ := nr
    rw [hm] at h
    dsimp only at h
    cases h
    rw [matchToolBlock_extend _ _ _ y hm]

/-! ## Run extension and feed associativity -/

/-- Append text to a channel-machinery state's buffer. -/
def chanExt (s : Str × Option Str × List (Str × Str)) (y : Str) :
    Str × Option Str × List (Str × Str) :=
  (s.1 ++ y, s.2.1, s.2.2)

/-- Append text to a tool-machinery state's buffer. -/
def toolExt (s : Str × List ToolCall) (y : Str) : Str × List ToolCall :=
  (s.1 ++ y, s.2)

lemma chanRun_extend_aux (f : Nat) :
    ∀ (s : Str × Option Str × List (Str × Str)) (y : Str), chanMeasure s ≤ f →
      chanRun (chanExt (chanRun s) y) = chanRun (chanExt s y) := by
  induction f with
  | zero =>
    intro s y h
    have := chanMeasure_pos s
    omega
  | succ f ih =>
    intro s y hf
    obtain ⟨b, op, c⟩ := s
    cases hstep : chanStep (b, op, c) with
    | none =>
      have hs : chanRun (b, op, c) = (b, op, c) := by
        rw [chanRun_eq (b, op, c), hstep]
      rw [hs]
    | some s2 =>
      obtain ⟨b2, op2, c2⟩ := s2
      have hs : chanRun (b, op, c) = chanRun (b2, op2, c2) := by
        rw [chanRun_eq (b, op, c), hstep]
      have hstepx := chanStep_extend y hstep
      have hx : chanRun (chanExt (b, op, c) y) = chanRun (chanExt (b2, op2, c2) y) := by
        show chanRun (b ++ y, op, c) = chanRun (b2 ++ y, op2, c2)
        rw [chanRun_eq (b ++ y, op, c), hstepx]
      rw [hs, hx]
      exact ih (b2, op2, c2) y (by have := chanStep_decrease hstep; omega)

lemma chanRun_extend (s : Str × Option Str × List (Str × Str)) (y : Str) :
    chanRun (chanExt (chanRun s) y) = chanRun (chanExt s y) :=
  chanRun_extend_aux (chanMeasure s) s y (Nat.le_refl _)

lemma toolRun_extend_aux (f : Nat) :
    ∀ (s : Str × List ToolCall) (y : Str), toolMeasure s ≤ f →
      toolRun (toolExt (toolRun s) y) = toolRun (toolExt s y) := by
  induction f with
  | zero =>
    intro s y h
    obtain ⟨b, calls⟩ := s
    cases hstep : toolStep (b, calls) with
    | none =>
      have hs : toolRun (b, calls) = (b, calls) := by
        rw [toolRun_eq (b, calls), hstep]
      rw [hs]
    | some s2 =>
      exfalso
      have := toolStep_decrease hstep
      simp only [toolMeasure] at h this
      omega
  | succ f ih =>
    intro s y hf
    obtain ⟨b, calls⟩ := s
    cases hstep : toolStep (b, calls) with
    | none =>
      have hs : toolRun (b, calls) = (b, calls) := by
        rw [toolRun_eq (b, calls), hstep]
      rw [hs]
    | some s2 =>
      obtain ⟨b2, calls2⟩ := s2
      have hs : toolRun (b, calls) = toolRun (b2, calls2) := by
        rw [toolRun_eq (b, calls), hstep]
      have hstepx := toolStep_extend y hstep
      have hx : toolRun (toolExt (b, calls) y) = toolRun (toolExt (b2, calls2) y) := by
        show toolRun (b ++ y, calls) = toolRun (b2 ++ y, calls2)
        rw [toolRun_eq (b ++ y, calls), hstepx]
      rw [hs, hx]
      exact ih (b2, calls2) y (by have := toolStep_decrease hstep; simp only [toolMeasure] at *; omega)

lemma toolRun_extend (s : Str × List ToolCall) (y : Str) :
    toolRun (toolExt (toolRun s) y) = toolRun (toolExt s y) :=
  toolRun_extend_aux (toolMeasure s) s y (Nat.le_refl _)

lemma streamFeed_eq_run (st : ParserState) (x : Str) :
    streamFeed st x = ParserState.mk
      (chanRun (st.buffer ++ x, st.channelInProgress, st.completedChannels)).1
      (chanRun (st.buffer ++ x, st.channelInProgress, st.completedChannels)).2.1
      (chanRun (st.buffer ++ x, st.channelInProgress, st.completedChannels)).2.2
      (toolRun (st.toolCallBuffer ++ x, st.completedToolCalls)).1
      (toolRun (st.toolCallBuffer ++ x, st.completedToolCalls)).2 := by
  unfold streamFeed
  dsimp only
  rw [chanLoop_eq_run _ _ (by
    cases hop : st.channelInProgress <;> (simp only [chanMeasure]; omega))]
  rw [toolLoop_eq_run _ _ (by simp only [toolMeasure]; omega)]

lemma streamFeed_assoc (st : ParserState) (x y : Str) :
    streamFeed (streamFeed st x) y = streamFeed st (x ++ y) := by
  rw [streamFeed_eq_run st x, streamFeed_eq_run, streamFeed_eq_run st (x ++ y)]
  have hc : chanRun ((chanRun (st.buffer ++ x, st.channelInProgress, st.completedChannels)).1 ++ y,
      (chanRun (st.buffer ++ x, st.channelInProgress, st.completedChannels)).2.1,
      (chanRun (st.buffer ++ x, st.channelInProgress, st.completedChannels)).2.2) =
      chanRun (st.buffer ++ (x ++ y), st.channelInProgress, st.completedChannels) := by
    have h := chanRun_extend (st.buffer ++ x, st.channelInProgress, st.completedChannels) y
    dsimp only [chanExt] at h
    rw [← List.append_assoc]
    exact h
  have ht : toolRun ((toolRun (st.toolCallBuffer ++ x, st.completedToolCalls)).1 ++ y,
      (toolRun (st.toolCallBuffer ++ x, st.completedToolCalls)).2) =
      toolRun (st.toolCallBuffer ++ (x ++ y), st.completedToolCalls) := by
    have h := toolRun_extend (st.toolCallBuffer ++ x, st.completedToolCalls) y
    dsimp only [toolExt] at h
    rw [← List.append_assoc]
    exact h
  rw [hc, ht]

lemma foldl_streamFeed_join (frags : List Str) (x : Str) :
    frags.foldl streamFeed (streamFeed initParserState x) =
      streamFeed initParserState (x ++ frags.flatten) := by
  induction frags generalizing x with
  | nil => simp
  | cons y fr ih =>
    simp only [List.foldl_cons, List.flatten_cons]
    rw [streamFeed_assoc, ih (x ++ y), List.append_assoc]

lemma foldl_streamFeed_init (frags : List Str) :
    frags.foldl streamFeed initParserState = streamFeed initParserState frags.flatten := by
  have h0 : streamFeed initParserState [] = initParserState := rfl
  have h := foldl_streamFeed_join frags []
  rw [h0] at h
  rw [h]
  rfl

/-! ## The tool machinery's full run equals the batch scan -/

lemma scanToolCallsAux_congr (f1 f2 : Nat) (t : Str) (h1 : t.length < f1)
    (h2 : t.length < f2) : scanToolCallsAux f1 t = scanToolCallsAux f2 t := by
  induction f1 generalizing t f2 with
  | zero => omega
  | succ f1 ih =>
    obtain ⟨f2x, rfl⟩ : ∃ k, f2 = k + 1 := ⟨f2 - 1, by omega⟩
    simp only [scanToolCallsAux]
    cases hm : matchToolBlock t with
    | none => rfl
    | some nr =>
      obtain ⟨np, rest⟩ := nr
      dsimp only
      have := matchToolBlock_rest_lt _ _ _ hm
      rw [ih f2x rest (by omega) (by omega)]

lemma scanToolCalls_cons_of_match (t : Str) (np : Str × Str) (rest : Str)
    (h : matchToolBlock t = some (np, rest)) :
    scanToolCalls t = np :: scanToolCalls rest := by
  show scanToolCallsAux (t.length + 1) t = _
  simp only [scanToolCallsAux, h]
  have := matchToolBlock_rest_lt _ _ _ h
  rw [scanToolCallsAux_congr t.length (rest.length + 1) rest (by omega) (by omega)]
  rfl

lemma scanToolCalls_nil_of_none (t : Str) (h : matchToolBlock t = none) :
    scanToolCalls t = [] := by
  show scanToolCallsAux (t.length + 1) t = _
  simp only [scanToolCallsAux, h]

lemma decodeToolCalls_cons (np : Str × Str) (L : List (Str × Str)) :
    decodeToolCalls (np :: L) =
      (Option.map (fun v => ToolCall.mk (jsTrim np.1) v) (jsonParse (jsTrim np.2))).toList ++
        decodeToolCalls L := by
  unfold decodeToolCalls
  cases h : jsonParse (jsTrim np.2) with
  | none => simp [List.filterMap_cons, h]
  | some v => simp [List.filterMap_cons, h]

lemma toolRun_calls_aux (f : Nat) :
    ∀ (t : Str) (calls : List ToolCall), t.length ≤ f →
      (toolRun (t, calls)).2 = calls ++ decodeToolCalls (scanToolCalls t) := by
  induction f with
  | zero =>
    intro t calls ht
    have ht0 : t = [] := List.length_eq_zero.mp (by omega)
    subst ht0
    have hm : matchToolBlock [] = none := rfl
    rw [toolRun_eq, scanToolCalls_nil_of_none _ hm]
    simp [toolStep, hm, decodeToolCalls]
  | succ f ih =>
    intro t calls ht
    rw [toolRun_eq]
    cases hm : matchToolBlock t with
    | none =>
      rw [scanToolCalls_nil_of_none _ hm]
      simp [toolStep, hm, decodeToolCalls]
    | some nr =>
      obtain ⟨np, rest⟩ := nr
      have hlt := matchToolBlock_rest_lt _ _ _ hm
      have hstep : toolStep (t, calls) = some (rest, calls ++
          (Option.map (fun v => ToolCall.mk (jsTrim np.1) v) (jsonParse (jsTrim np.2))).toList) := by
        simp only [toolStep, hm]
      rw [hstep]
      dsimp only
      rw [ih rest _ (by omega)]
      rw [scanToolCalls_cons_of_match t np rest hm, decodeToolCalls_cons]
      simp [List.append_assoc]

lemma toolRun_calls (t : Str) (calls : List ToolCall) :
    (toolRun (t, calls)).2 = calls ++ decodeToolCalls (scanToolCalls t) :=
  toolRun_calls_aux t.length t calls (Nat.le_refl _)

/-! ## Position-freeness of patterns over concatenated pieces -/

/-- No occurrence of `pat` can begin inside `a`, whatever follows. -/
def startFree (pat a : Str) : Prop :=
  ∀ i, i < a.length → ∀ b, List.isPrefixOf pat (List.drop i a ++ b) = false

lemma startFree_nil (pat : Str) : startFree pat [] := by
  intro i hi b
  simp at hi

lemma startFree_of_noLt (pat a : Str) (hpat : pat.head? = some '<') (ha : noLt a) :
    startFree pat a := by
  cases pat with
  | nil => simp at hpat
  | cons c pr =>
    have hc : c = '<' := by simpa using hpat
    subst hc
    intro i hi b
    have hne : (List.drop i a).length ≠ 0 := by
      simp [List.length_drop]
      omega
    cases hd : List.drop i a with
    | nil => simp [hd] at hne
    | cons c t =>
      have hmem : c ∈ a := by
        have : c ∈ List.drop i a := by simp [hd]
        exact List.mem_of_mem_drop this
      have : c ≠ '<' := fun hcc => ha (hcc ▸ hmem)
      simp [hd, isPrefixOf_false_of_head_ne this]

lemma startFree_of_noStartIn (pat a : Str) (h : noStartIn pat a = true) :
    startFree pat a := by
  intro i hi b
  cases hbool : List.isPrefixOf pat (List.drop i a ++ b) with
  | false => rfl
  | true =>
    exfalso
    have hpre := take_isPrefixOf_of_append pat (List.drop i a) b hbool
    have hlen : (List.drop i a).length = a.length - i := by simp
    rw [hlen] at hpre
    have hall := List.all_eq_true.mp h i (List.mem_range.mpr hi)
    simp [hpre] at hall

lemma startFree_append (pat a b : Str) (hA : startFree pat a) (hB : startFree pat b) :
    startFree pat (a ++ b) := by
  intro i hi trail
  by_cases hia : i < a.length
  · have hx : List.drop i (a ++ b) ++ trail = List.drop i a ++ (b ++ trail) := by
      rw [drop_append_le _ _ _ (Nat.le_of_lt hia), List.append_assoc]
    rw [hx]
    exact hA i hia (b ++ trail)
  · push_neg at hia
    have hx : List.drop i (a ++ b) = List.drop (i - a.length) b := by
      rw [List.drop_append_eq_append_drop, List.drop_eq_nil_of_le hia]
      rfl
    rw [hx]
    apply hB
    have : i < a.length + b.length := by simpa [List.length_append] using hi
    omega

lemma firstOccur_append_startFree (pat a b : Str) (h : startFree pat a) :
    firstOccur pat (a ++ b) = Option.map (fun n => n + a.length) (firstOccur pat b) :=
  firstOccur_append_skip pat a b (fun i hi => h i hi b)

lemma firstOccur_none_of_startFree (pat t : Str) (h : startFree pat t) :
    firstOccur pat t = none ∨ pat = [] := by
  cases pat with
  | nil => exact Or.inr rfl
  | cons c pr =>
    left
    induction t with
    | nil => simp [firstOccur, List.isPrefixOf]
    | cons x u ih =>
      have h0 := h 0 (by simp) []
      have h0x : List.isPrefixOf (c :: pr) (x :: u) = false := by
        have hrw : List.drop 0 (x :: u) ++ [] = x :: u := by simp
        rw [hrw] at h0
        exact h0
      have hrest : startFree (c :: pr) u := by
        intro i hi b
        have := h (i + 1) (by simp; omega) b
        simpa using this
      simp [firstOccur, h0x, ih hrest]

lemma noLt_append {a b : Str} (ha : noLt a) (hb : noLt b) : noLt (a ++ b) := by
  intro h
  rcases List.mem_append.mp h with h1 | h1
  · exact ha h1
  · exact hb h1

lemma noLt_nil : noLt ([] : Str) := by
  intro h
  cases h

lemma official_noLt (ch : Str) (h : ch ∈ officialChannels) : noLt ch := by
  simp only [officialChannels, List.mem_cons, List.mem_singleton, List.not_mem_nil,
    or_false] at h
  rcases h with rfl | rfl | rfl <;> decide

lemma marker_noStartIn_of_ne (ch1 ch2 : Str) (h1 : ch1 ∈ officialChannels)
    (h2 : ch2 ∈ officialChannels) (hne : ch1 ≠ ch2) :
    noStartIn (chanMarker ch1) (chanMarker ch2) = true := by
  simp only [officialChannels, List.mem_cons, List.mem_singleton, List.not_mem_nil,
    or_false] at h1 h2
  rcases h1 with rfl | rfl | rfl <;> rcases h2 with rfl | rfl | rfl <;>
    first
      | exact absurd rfl hne
      | decide

lemma marker_noStartIn_TC (ch : Str) (h : ch ∈ officialChannels) :
    noStartIn TC_OPEN (chanMarker ch) = true := by
  simp only [officialChannels, List.mem_cons, List.mem_singleton, List.not_mem_nil,
    or_false] at h
  rcases h with rfl | rfl | rfl <;> decide

/-! ## Well-formed responses and the machine's single run -/

/-- Render a sequence of channel segments: each is the channel's open
marker followed by its body. -/
def renderSegs : List (Str × Str) → Str
  | [] => []
  | (ch, b) :: rest => chanMarker ch ++ (b ++ renderSegs rest)

/-- Well-formedness of one segment: a known channel name and a body free
of the wire-format character `<`. -/
def wfSeg (e : Str × Str) : Prop := e.1 ∈ officialChannels ∧ noLt e.2

instance (e : Str × Str) : Decidable (wfSeg e) := by
  unfold wfSeg
  infer_instance

lemma chanMarker_split (ch X : Str) :
    chanMarker ch ++ X = TOK_LOOK ++ ('>' :: (ch ++ (TOK_END ++ X))) := by
  show (TOK_CHANNEL ++ ch ++ TOK_END) ++ X = _
  rw [show TOK_CHANNEL = TOK_LOOK ++ ['>'] from rfl]
  simp [List.append_assoc]

lemma chanStep_open (pre ch b X : Str) (c0 : List (Str × Str))
    (hpre : noLt pre) (hch : noLt ch) :
    chanStep (pre ++ (chanMarker ch ++ (b ++ X)), none, c0) =
      some (b ++ X, some ch, c0) := by
  simp only [chanStep]
  rw [chanMarker_split]
  have hf : firstOccur TOK_LOOK
      (pre ++ (TOK_LOOK ++ ('>' :: (ch ++ (TOK_END ++ (b ++ X)))))) = some pre.length := by
    rw [firstOccur_append_noLt_headLt TOK_LOOK pre _ rfl hpre, firstOccur_self_append]
    simp
  rw [hf]
  dsimp only
  have hd1 : (pre ++ (TOK_LOOK ++ ('>' :: (ch ++ (TOK_END ++ (b ++ X)))))).drop
      (pre.length + TOK_LOOK.length) = '>' :: (ch ++ (TOK_END ++ (b ++ X))) := by
    rw [← List.append_assoc]
    exact drop_append_of_length _ _ _ (by simp)
  rw [hd1]
  dsimp only
  rw [if_pos rfl]
  have hf2 : firstOccur TOK_END (ch ++ (TOK_END ++ (b ++ X))) = some ch.length := by
    rw [firstOccur_append_noLt_headLt TOK_END ch _ rfl hch, firstOccur_self_append]
    simp
  rw [hf2]
  dsimp only
  have ht : (ch ++ (TOK_END ++ (b ++ X))).take ch.length = ch :=
    take_append_of_length _ _ _ rfl
  have hd2 : (ch ++ (TOK_END ++ (b ++ X))).drop (ch.length + TOK_END.length) = b ++ X := by
    rw [← List.append_assoc]
    exact drop_append_of_length _ _ _ (by simp)
  rw [ht, hd2]

lemma chanStep_close (b ch2 R ch : Str) (c : List (Str × Str)) (hb : noLt b) :
    chanStep (b ++ (chanMarker ch2 ++ R), some ch, c) =
      some (chanMarker ch2 ++ R, none, setChan c ch (jsTrim b)) := by
  simp only [chanStep]
  have hf : firstOccur TOK_LOOK (b ++ (chanMarker ch2 ++ R)) = some b.length := by
    rw [chanMarker_split, firstOccur_append_noLt_headLt TOK_LOOK b _ rfl hb,
      firstOccur_self_append]
    simp
  rw [hf]
  dsimp only
  rw [take_append_of_length _ _ _ rfl, drop_append_of_length _ _ _ rfl]

lemma chanStep_quiet_some (b ch : Str) (c : List (Str × Str)) (hb : noLt b) :
    chanStep (b, some ch, c) = none := by
  simp only [chanStep]
  rw [firstOccur_none_of_headLt TOK_LOOK b rfl hb]

lemma chanStep_quiet_none (b : Str) (c : List (Str × Str)) (hb : noLt b) :
    chanStep (b, none, c) = none := by
  simp only [chanStep]
  rw [firstOccur_none_of_headLt TOK_LOOK b rfl hb]

/-- The state the channel machinery reaches after consuming a full
well-formed response: junk before the first marker stays buffered when
there are no segments; otherwise all but the last segment are closed
into the map and the last remains open, its body buffered, awaiting the
end-of-stream flush. -/
def chanFinal (pre : Str) (c0 : List (Str × Str)) :
    List (Str × Str) → Str × Option Str × List (Str × Str)
  | [] => (pre ++ [], none, c0)
  | [(ch, b)] => (b ++ [], some ch, c0)
  | (ch, b) :: e2 :: rest => chanFinal [] (setChan c0 ch (jsTrim b)) (e2 :: rest)

lemma chanRun_render :
    ∀ (segs : List (Str × Str)) (pre : Str) (c0 : List (Str × Str)),
      noLt pre → (∀ e ∈ segs, wfSeg e) →
      chanRun (pre ++ renderSegs segs, none, c0) = chanFinal pre c0 segs := by
  intro segs
  induction segs with
  | nil =>
    intro pre c0 hpre hw
    rw [chanRun_eq]
    have hq : chanStep (pre ++ renderSegs [], none, c0) = none :=
      chanStep_quiet_none _ _ (noLt_append hpre noLt_nil)
    rw [hq]
    rfl
  | cons e rest ih =>
    obtain ⟨ch, b⟩ := e
    intro pre c0 hpre hw
    obtain ⟨hch, hb⟩ := hw (ch, b) (by simp)
    have hchl := official_noLt ch hch
    rw [chanRun_eq]
    rw [show renderSegs ((ch, b) :: rest) = chanMarker ch ++ (b ++ renderSegs rest) from rfl]
    rw [chanStep_open pre ch b (renderSegs rest) c0 hpre hchl]
    dsimp only
    cases rest with
    | nil =>
      rw [chanRun_eq]
      have hq : chanStep (b ++ renderSegs [], some ch, c0) = none :=
        chanStep_quiet_some _ _ _ (noLt_append hb noLt_nil)
      rw [hq]
      rfl
    | cons e2 r2 =>
      obtain ⟨ch2, b2⟩ := e2
      rw [chanRun_eq]
      rw [show renderSegs ((ch2, b2) :: r2) = chanMarker ch2 ++ (b2 ++ renderSegs r2) from rfl]
      rw [chanStep_close b ch2 (b2 ++ renderSegs r2) ch c0 hb]
      dsimp only
      have ihx := ih [] (setChan c0 ch (jsTrim b)) noLt_nil
        (fun x hx => hw x (List.mem_cons_of_mem _ hx))
      rw [show ([] : Str) ++ renderSegs ((ch2, b2) :: r2) =
        chanMarker ch2 ++ (b2 ++ renderSegs r2) from rfl] at ihx
      rw [ihx]
      rfl

/-- Apply the finalize flush of §4.4 to a machine state's channel part. -/
def flushChans : Str × Option Str × List (Str × Str) → List (Str × Str)
  | (buf, some ch, chans) => setChan chans ch (jsTrim buf)
  | (_, none, chans) => chans

/-- The channel map the machine plus flush produces on a well-formed
response: every segment's trimmed body assigned in order. -/
def finalChans (c0 : List (Str × Str)) : List (Str × Str) → List (Str × Str)
  | [] => c0
  | (ch, b) :: rest => finalChans (setChan c0 ch (jsTrim b)) rest

lemma flush_chanFinal :
    ∀ (segs : List (Str × Str)) (pre : Str) (c0 : List (Str × Str)),
      flushChans (chanFinal pre c0 segs) = finalChans c0 segs := by
  intro segs
  induction segs with
  | nil => intro pre c0; rfl
  | cons e rest ih =>
    obtain ⟨ch, b⟩ := e
    intro pre c0
    cases rest with
    | nil =>
      show setChan c0 ch (jsTrim (b ++ [])) = finalChans (setChan c0 ch (jsTrim b)) []
      rw [List.append_nil]
      rfl
    | cons e2 r2 =>
      show flushChans (chanFinal [] (setChan c0 ch (jsTrim b)) (e2 :: r2)) = _
      rw [ih [] (setChan c0 ch (jsTrim b))]
      rfl

/-! ## Batch extraction over a well-formed response -/

lemma chanMarker_ne_nil (ch : Str) : chanMarker ch ≠ [] := by
  intro h
  have hh : (chanMarker ch).head? = some '<' := rfl
  rw [h] at hh
  cases hh

lemma find?_cons_eq {α} (p : α → Bool) (a : α) (l : List α) :
    List.find? p (a :: l) = if p a then some a else List.find? p l := by
  cases hpa : p a <;> simp [List.find?, hpa]

lemma sectionText_render (ch : Str) (hch : ch ∈ officialChannels) :
    ∀ (segs : List (Str × Str)) (pre : Str),
      (∀ e ∈ segs, wfSeg e) → startFree (chanMarker ch) pre →
      sectionText ch (pre ++ renderSegs segs) =
        Option.map (fun e => jsTrim e.2) (segs.find? (fun e => e.1 == ch)) := by
  intro segs
  induction segs with
  | nil =>
    intro pre hw hsf
    unfold sectionText
    have hnone : firstOccur (chanMarker ch) (pre ++ renderSegs []) = none := by
      rcases firstOccur_none_of_startFree (chanMarker ch) (pre ++ renderSegs [])
          (startFree_append _ _ _ hsf (startFree_nil _)) with h | h
      · exact h
      · exact absurd h (chanMarker_ne_nil ch)
    rw [hnone]
    rfl
  | cons e rest ih =>
    obtain ⟨ch1, b⟩ := e
    intro pre hw hsf
    obtain ⟨hch1, hb⟩ := hw (ch1, b) (by simp)
    by_cases he : ch1 = ch
    · subst he
      have hfind : (((ch1, b) :: rest).find? (fun e => e.1 == ch1)) = some (ch1, b) := by
        rw [find?_cons_eq]
        rw [if_pos (by simp)]
      rw [hfind]
      unfold sectionText
      rw [show renderSegs ((ch1, b) :: rest) = chanMarker ch1 ++ (b ++ renderSegs rest) from rfl]
      have hocc : firstOccur (chanMarker ch1)
          (pre ++ (chanMarker ch1 ++ (b ++ renderSegs rest))) = some pre.length := by
        rw [firstOccur_append_startFree _ _ _ hsf, firstOccur_self_append]
        simp
      rw [hocc]
      show some (jsTrim (captureUpTo
        ((pre ++ (chanMarker ch1 ++ (b ++ renderSegs rest))).drop
          (pre.length + (chanMarker ch1).length)))) = some (jsTrim b)
      have hdrop : (pre ++ (chanMarker ch1 ++ (b ++ renderSegs rest))).drop
          (pre.length + (chanMarker ch1).length) = b ++ renderSegs rest := by
        rw [← List.append_assoc]
        exact drop_append_of_length _ _ _ (by simp)
      rw [hdrop]
      cases rest with
      | nil =>
        rw [show renderSegs [] = ([] : Str) from rfl, List.append_nil]
        unfold captureUpTo
        rw [firstOccur_none_of_headLt TOK_LOOK b rfl hb]
      | cons e2 r2 =>
        obtain ⟨ch2, b2⟩ := e2
        unfold captureUpTo
        have hlook : firstOccur TOK_LOOK (b ++ renderSegs ((ch2, b2) :: r2)) = some b.length := by
          rw [show renderSegs ((ch2, b2) :: r2) = chanMarker ch2 ++ (b2 ++ renderSegs r2) from rfl]
          rw [chanMarker_split, firstOccur_append_noLt_headLt TOK_LOOK b _ rfl hb,
            firstOccur_self_append]
          simp
        rw [hlook]
        show some (jsTrim ((b ++ renderSegs ((ch2, b2) :: r2)).take b.length)) = _
        rw [take_append_of_length _ _ _ rfl]
    · have hpredf : ((ch1, b).1 == ch) = false := by
        cases hb2 : (ch1 == ch) with
        | false => rfl
        | true => exact absurd (eq_of_beq hb2) he
      have hfind : (((ch1, b) :: rest).find? (fun e => e.1 == ch)) =
          rest.find? (fun e => e.1 == ch) := by
        rw [find?_cons_eq]
        rw [if_neg (by simp [hpredf])]
      rw [hfind]
      have hre : pre ++ renderSegs ((ch1, b) :: rest) =
          ((pre ++ chanMarker ch1) ++ b) ++ renderSegs rest := by
        rw [show renderSegs ((ch1, b) :: rest) = chanMarker ch1 ++ (b ++ renderSegs rest) from rfl]
        simp [List.append_assoc]
      rw [hre]
      apply ih
      · exact fun x hx => hw x (List.mem_cons_of_mem _ hx)
      · apply startFree_append
        · apply startFree_append _ _ _ hsf
          exact startFree_of_noStartIn _ _
            (marker_noStartIn_of_ne ch ch1 hch hch1 (fun hh => he hh.symm))
        · exact startFree_of_noLt _ _ rfl hb

/-! ## Looking channels up in the machine's final map -/

lemma find?_append_none {α} (p : α → Bool) (l1 l2 : List α) (h : l1.find? p = none) :
    (l1 ++ l2).find? p = l2.find? p := by
  induction l1 with
  | nil => rfl
  | cons a l ih =>
    rw [find?_cons_eq] at h
    by_cases hpa : p a = true
    · rw [if_pos hpa] at h
      cases h
    · rw [if_neg hpa] at h
      show List.find? p (a :: (l ++ l2)) = _
      rw [find?_cons_eq, if_neg hpa]
      exact ih h

lemma find?_append_some {α} (p : α → Bool) (l1 l2 : List α) (x : α)
    (h : l1.find? p = some x) : (l1 ++ l2).find? p = some x := by
  induction l1 with
  | nil => cases h
  | cons a l ih =>
    rw [find?_cons_eq] at h
    by_cases hpa : p a = true
    · rw [if_pos hpa] at h
      show List.find? p (a :: (l ++ l2)) = _
      rw [find?_cons_eq, if_pos hpa]
      exact h
    · rw [if_neg hpa] at h
      show List.find? p (a :: (l ++ l2)) = _
      rw [find?_cons_eq, if_neg hpa]
      exact ih h

lemma lookupChan_setChan_same (c0 : List (Str × Str)) (k v : Str)
    (h : lookupChan c0 k = none) : lookupChan (setChan c0 k v) k = some v := by
  unfold lookupChan at h ⊢
  have hfind : c0.find? (fun q => q.1 == k) = none := by
    cases hf : c0.find? (fun q => q.1 == k) with
    | none => rfl
    | some x =>
      rw [hf] at h
      cases h
  have hany : (c0.any fun q => q.1 == k) = false := by
    cases hA : c0.any fun q => q.1 == k with
    | false => rfl
    | true =>
      obtain ⟨x, hx, hpx⟩ := List.any_eq_true.mp hA
      have := List.find?_eq_none.mp hfind x hx
      exact absurd hpx this
  unfold setChan
  rw [if_neg (by simp [hany])]
  rw [find?_append_none _ _ _ hfind]
  rw [find?_cons_eq]
  rw [if_pos (by simp)]
  rfl

lemma lookupChan_setChan_other (c0 : List (Str × Str)) (k1 v k : Str) (hne : k1 ≠ k) :
    lookupChan (setChan c0 k1 v) k = lookupChan c0 k := by
  unfold lookupChan setChan
  by_cases hany : (c0.any fun q => q.1 == k1) = true
  · rw [if_pos hany]
    clear hany
    induction c0 with
    | nil => rfl
    | cons q l ih =>
      obtain ⟨qk, qv⟩ := q
      simp only [List.map_cons]
      by_cases hq1 : (qk == k1) = true
      · have hqk : qk = k1 := eq_of_beq hq1
        have hqkk : (qk == k) = false := by
          cases hb : (qk == k) with
          | false => rfl
          | true => exact absurd (hqk.symm.trans (eq_of_beq hb)) hne
        rw [if_pos hq1]
        rw [find?_cons_eq, find?_cons_eq]
        rw [if_neg (by simp [hqkk]), if_neg (by simp [hqkk])]
        exact ih
      · have hq1' : (qk == k1) = false := bool_eq_false hq1
        rw [if_neg (by simp [hq1'])]
        rw [find?_cons_eq, find?_cons_eq]
        by_cases hqk2 : (qk == k) = true
        · rw [if_pos (by simp [hqk2]), if_pos (by simp [hqk2])]
        · rw [if_neg (by simp [bool_eq_false hqk2]), if_neg (by simp [bool_eq_false hqk2])]
          exact ih
  · rw [if_neg hany]
    cases hf : c0.find? (fun q => q.1 == k) with
    | some x =>
      rw [find?_append_some _ _ _ _ hf]
    | none =>
      rw [find?_append_none _ _ _ hf]
      rw [find?_cons_eq]
      have hp : ((k1, v).1 == k) = false := by
        cases hb : (k1 == k) with
        | false => rfl
        | true => exact absurd (eq_of_beq hb) hne
      rw [if_neg (by simp [hp])]
      rfl

lemma lookupChan_finalChans_skip :
    ∀ (rest : List (Str × Str)) (c0 : List (Str × Str)) (ch : Str),
      ch ∉ rest.map Prod.fst →
      lookupChan (finalChans c0 rest) ch = lookupChan c0 ch := by
  intro rest
  induction rest with
  | nil => intro c0 ch _; rfl
  | cons e r ih =>
    obtain ⟨ch1, b⟩ := e
    intro c0 ch h
    simp only [List.map_cons, List.mem_cons] at h
    push_neg at h
    show lookupChan (finalChans (setChan c0 ch1 (jsTrim b)) r) ch = _
    rw [ih _ ch h.2]
    exact lookupChan_setChan_other _ _ _ _ (fun hh => h.1 hh.symm)

lemma lookupChan_finalChans :
    ∀ (segs : List (Str × Str)) (c0 : List (Str × Str)) (ch : Str),
      (segs.map Prod.fst).Nodup → lookupChan c0 ch = none →
      lookupChan (finalChans c0 segs) ch =
        Option.map (fun e => jsTrim e.2) (segs.find? (fun e => e.1 == ch)) := by
  intro segs
  induction segs with
  | nil =>
    intro c0 ch _ h0
    rw [show finalChans c0 [] = c0 from rfl, h0]
    rfl
  | cons e rest ih =>
    obtain ⟨ch1, b⟩ := e
    intro c0 ch hnd h0
    simp only [List.map_cons, List.nodup_cons] at hnd
    by_cases he : ch1 = ch
    · subst he
      show lookupChan (finalChans (setChan c0 ch1 (jsTrim b)) rest) ch1 = _
      rw [lookupChan_finalChans_skip rest _ ch1 hnd.1]
      rw [lookupChan_setChan_same _ _ _ h0]
      rw [find?_cons_eq]
      rw [if_pos (by simp)]
      rfl
    · show lookupChan (finalChans (setChan c0 ch1 (jsTrim b)) rest) ch = _
      rw [ih _ ch hnd.2 (by rw [lookupChan_setChan_other _ _ _ _ he]; exact h0)]
      rw [find?_cons_eq]
      have hp : ((ch1, b).1 == ch) = false := by
        cases hb2 : (ch1 == ch) with
        | false => rfl
        | true => exact absurd (eq_of_beq hb2) he
      rw [if_neg (by simp [hp])]

lemma streamFinalize_eq (st : ParserState) :
    streamFinalize st = Parsed.mk
      (lookupChan (flushChans (st.buffer, st.channelInProgress, st.completedChannels))
        ("analysis".toList))
      (lookupChan (flushChans (st.buffer, st.channelInProgress, st.completedChannels))
        ("commentary".toList))
      (lookupChan (flushChans (st.buffer, st.channelInProgress, st.completedChannels))
        ("final".toList))
      (if st.completedToolCalls.isEmpty then none else some st.completedToolCalls) := by
  unfold streamFinalize flushChans
  cases hc : st.channelInProgress <;> rfl

/-! ## C7 -/

/-- C7: streaming equivalence.  For every well-formed complete response —
`<`-free junk, then channel segments with distinct known channels and
`<`-free bodies — and every partition of it into fragments (including
partitions that bisect a wire token), feeding the fragments in order to
the streaming parser and finalizing produces a ParsedResult identical
to batch-parsing the full string in one call. -/
theorem streaming_equiv_batch (pre : Str) (segs : List (Str × Str)) (frags : List Str)
    (hpre : noLt pre)
    (hsegs : ∀ e ∈ segs, wfSeg e)
    (hnodup : (segs.map Prod.fst).Nodup)
    (hjoin : frags.flatten = pre ++ renderSegs segs) :
    streamFinalize (frags.foldl streamFeed initParserState) =
      parseHarmony (pre ++ renderSegs segs) := by
  rw [foldl_streamFeed_init, hjoin]
  rw [streamFeed_eq_run]
  rw [streamFinalize_eq]
  dsimp only [initParserState]
  simp only [List.nil_append]
  have hEta : ((chanRun (pre ++ renderSegs segs, none, ([] : List (Str × Str)))).1,
      (chanRun (pre ++ renderSegs segs, none, ([] : List (Str × Str)))).2.1,
      (chanRun (pre ++ renderSegs segs, none, ([] : List (Str × Str)))).2.2) =
      chanRun (pre ++ renderSegs segs, none, ([] : List (Str × Str))) := rfl
  rw [hEta]
  rw [chanRun_render segs pre [] hpre hsegs]
  rw [flush_chanFinal]
  rw [lookupChan_finalChans segs [] ("analysis".toList) hnodup rfl]
  rw [lookupChan_finalChans segs [] ("commentary".toList) hnodup rfl]
  rw [lookupChan_finalChans segs [] ("final".toList) hnodup rfl]
  have htool := toolRun_calls (pre ++ renderSegs segs) []
  rw [htool]
  show Parsed.mk _ _ _ _ =
    parseHarmony (pre ++ renderSegs segs)
  unfold parseHarmony
  dsimp only
  rw [sectionText_render ("analysis".toList) (by decide) segs pre hsegs
    (startFree_of_noLt _ _ rfl hpre)]
  rw [sectionText_render ("commentary".toList) (by decide) segs pre hsegs
    (startFree_of_noLt _ _ rfl hpre)]
  rw [sectionText_render ("final".toList) (by decide) segs pre hsegs
    (startFree_of_noLt _ _ rfl hpre)]
  simp only [List.nil_append]

/-- C7 at a concrete response with two channels, fed in fragments that
bisect both the `<|channel|` token and the `<|end|>` token. -/
theorem streaming_equiv_batch_witness :
    streamFinalize (List.foldl streamFeed initParserState
        ["pre ".toList, "<|chan".toList, "nel|>analysis<|e".toList,
         "nd|>Thinking...\n<|channel|>final<".toList, "|end|>Done".toList]) =
      parseHarmony (("pre ".toList) ++
        renderSegs [("analysis".toList, "Thinking...\n".toList), ("final".toList, "Done".toList)]) :=
  streaming_equiv_batch ("pre ".toList)
    [("analysis".toList, "Thinking...\n".toList), ("final".toList, "Done".toList)]
    ["pre ".toList, "<|chan".toList, "nel|>analysis<|e".toList,
     "nd|>Thinking...\n<|channel|>final<".toList, "|end|>Done".toList]
    (by decide) (by decide) (by decide) (by decide)
